import Mathlib

set_option maxHeartbeats 1000000

/-!
Shallow embedding of the poker engine in src/rust_poker_env/src/lib.rs.

Conventions of the embedding:
* Rust i32 chip amounts become Int (no overflow is at issue in any claim).
* Vec<T> becomes List T; Rust indexing (which panics out of range) becomes
  List.getD / List.set, and every theorem that relies on indexing carries
  in-range hypotheses under which the two agree.
* The external Python agents are modelled as an oracle function of type
  Policy (agent handle, observable state, offered action list -> action);
  the hand evaluator of rs_poker is modelled as an oracle of type
  Rank = String -> Int (higher = stronger, as in rs_poker, where the code
  sorts by Reverse of the rank); the shuffled deck is an oracle input.
* println! output is collected in a List String log component; the verbose
  flag gates log entries exactly where the source gates printing.  The log
  text itself is abbreviated (its content plays no role in any claim).
* Rust functions that can panic or loop forever are modelled with Option:
  none models the panic / divergence.  Loops whose termination is not
  structural take a fuel argument; callers pass a fuel that is proved (or
  in resolution, chosen) sufficient on the states the theorems speak about.
* Int division: on the nonnegative pot amounts and positive divisor counts
  arising here, Lean's euclidean / and % agree with Rust's truncated
  division, so the default Int operations are used.
-/

inductive Phase where
  | preflop
  | flop
  | turn
  | river
  | showdown
deriving DecidableEq, Repr

/-- An entry of the legal-action list built by get_available_actions:
the Rust code pushes PyTuples (Fold), (Check), (Call, amount),
(Raise, (lo, hi)). -/
inductive Offer where
  | fold
  | check
  | call (amount : Int)
  | raiseRange (lo hi : Int)
deriving DecidableEq, Repr

/-- The action object a policy returns: the Rust code extracts item 0 as a
String and, in the call/raise arms only, item 1 as an i32.  We model it as a
kind string together with an amount (the amount is ignored for fold/check,
mirroring that Rust never extracts item 1 there). -/
structure PAct where
  kind : String
  amount : Int
deriving DecidableEq, Repr

/-- The PokerEnv struct (pyo3 class).  Python agent objects are modelled as
opaque Nat handles. -/
structure Env where
  agents : List Nat
  dead_agents : List Nat
  names : List String
  dead_names : List String
  num_players : Nat
  small_blind : Int
  big_blind : Int
  max_raise : Int
  initial_stack : Int
  «stacks» : List Int
  dealer_pos : Nat
  bets : List Int
  folded : List Bool
  all_in : List Bool
  rewards : List Int
  current_phase : Phase
  current_player : Nat
  deck : List String
  player_cards : List (List String)
  community_cards : List String
deriving DecidableEq, Repr

/-- The observable-state dict built by get_state. -/
structure Obs where
  player_cards : List String
  community_cards : List String
  «stacks» : List Int
  bets : List Int
  phase : Phase
  current_player : Nat
  folded : List Bool
  all_in : List Bool
deriving DecidableEq, Repr

def Policy : Type := Nat → Obs → List Offer → PAct

def Rank : Type := String → Int

/-- self.bets.iter().max(): maximum of a list, none when empty. -/
def vecMax : List Int → Option Int
  | [] => none
  | b :: bs =>
    some (match vecMax bs with
          | none => b
          | some m => max b m)

/-- max_bet as the Rust code computes it: .max().copied().unwrap_or(0). -/
def maxBet (bets : List Int) : Int := (vecMax bets).getD 0

/-- apply_bet (lib.rs 186-193): sets the player's bet to the absolute
amount, then flags all-in when stack minus the (new) bet is zero. -/
def apply_bet (st : Env) (player : Nat) (amount : Int) : Env :=
  let st1 := { st with bets := st.bets.set player amount }
  if st1.stacks.getD player 0 - st1.bets.getD player 0 = 0 then
    { st1 with all_in := st1.all_in.set player true }
  else st1

/-- get_state (lib.rs 253-266). -/
def get_state (st : Env) : Obs :=
  { player_cards := st.player_cards.getD st.current_player []
    community_cards := st.community_cards
    «stacks» := st.stacks
    bets := st.bets
    phase := st.current_phase
    current_player := st.current_player
    folded := st.folded
    all_in := st.all_in }

/-- get_available_actions (lib.rs 196-250). -/
def get_available_actions (st : Env) : List Offer :=
  let current_bet := st.bets.getD st.current_player 0
  let current_stack := st.stacks.getD st.current_player 0
  let max_bet := maxBet st.bets
  if st.all_in.getD st.current_player false then []
  else
    let sum_all_in := st.all_in.count true
    let sum_folded := st.folded.count true
    if sum_all_in + sum_folded = st.folded.length - 1 then
      Offer.fold ::
        (if current_bet ≠ max_bet then [Offer.call (min max_bet current_stack)] else [])
    else
      Offer.fold ::
        ((if current_bet = max_bet then [Offer.check]
          else [Offer.call (min max_bet current_stack)]) ++
         (if current_stack > max_bet then
            (if current_stack ≥ max_bet * 2 then
               [Offer.raiseRange (max_bet + st.max_raise) current_stack]
             else [Offer.raiseRange current_stack current_stack])
          else []))

/-- The raise arm of the match in step_bid (lib.rs 330-340), minus the
last_bet update that lives in the loop: compute the raise increment over the
current maximum bet, ratchet max_raise, then apply the bet. -/
def applyRaise (st : Env) (amount : Int) : Env :=
  let raise_amount := amount - maxBet st.bets
  let st1 := if raise_amount > st.max_raise then { st with max_raise := raise_amount } else st
  apply_bet st1 st1.current_player amount

/-- Whether a returned action is a member of an offered action list, by kind
and (for call/raise) by amount / amount-within-range.  This formalises the
spec's membership notion; the Rust engine itself performs no such check. -/
def OfferMatch (a : PAct) : Offer → Prop
  | Offer.fold => a.kind = "fold"
  | Offer.check => a.kind = "check"
  | Offer.call c => a.kind = "call" ∧ a.amount = c
  | Offer.raiseRange lo hi => a.kind = "raise" ∧ lo ≤ a.amount ∧ a.amount ≤ hi

instance (a : PAct) (o : Offer) : Decidable (OfferMatch a o) := by
  cases o <;> simp only [OfferMatch] <;> infer_instance

def MemOffer (a : PAct) (offers : List Offer) : Prop :=
  ∃ o ∈ offers, OfferMatch a o

instance (a : PAct) (offers : List Offer) : Decidable (MemOffer a offers) :=
  List.decidableBEx _ offers

/-- The match on the returned action's kind string in step_bid
(lib.rs 319-346): fold sets the folded flag, check does nothing, call
applies the bet, raise ratchets the floor, applies the bet and moves
last_bet to the seat before the raiser; any other kind is the PyErr arm,
modelled as none.  No membership check against the offered list is made. -/
def applyAction (st : Env) (lastBet : Nat) (a : PAct) : Option (Env × Nat) :=
  if a.kind = "fold" then
    some ({ st with folded := st.folded.set st.current_player true }, lastBet)
  else if a.kind = "check" then some (st, lastBet)
  else if a.kind = "call" then some (apply_bet st st.current_player a.amount, lastBet)
  else if a.kind = "raise" then
    some (applyRaise st a.amount,
      (st.current_player + st.num_players - 1) % st.num_players)
  else none

/-- Result of one pass through the body of the loop in step_bid. -/
inductive BidStep where
  | brk (st : Env)
  | cont (st : Env) (lastBet : Nat)
  | invalid (st : Env)
deriving DecidableEq, Repr

/-- One iteration of the loop body of step_bid (lib.rs 284-359).
lastBet is the local last_bet; the returned List String is what this
iteration printed. -/
def bidIter (pol : Policy) (verbose : Bool) (st : Env) (lastBet : Nat) :
    BidStep × List String :=
  let p := st.current_player
  if st.folded.getD p false then
    if lastBet = p then (BidStep.brk st, [])
    else (BidStep.cont { st with current_player := (p + 1) % st.num_players } lastBet, [])
  else
    let obs := get_state st
    let acts := get_available_actions st
    if acts.length = 1 then (BidStep.brk st, [])
    else
      let log := if acts.isEmpty then [] else if verbose then [(st.names.getD p "") ++ " has acted"] else []
      let acted : Option (Env × Nat) :=
        if acts.isEmpty then some (st, lastBet)
        else applyAction st lastBet (pol (st.agents.getD p 0) obs acts)
      match acted with
      | none => (BidStep.invalid st, log)
      | some (st1, lb1) =>
        if st1.folded.count true = st1.folded.length - 1 then (BidStep.brk st1, log)
        else if lb1 = p then (BidStep.brk st1, log)
        else (BidStep.cont { st1 with current_player := (p + 1) % st1.num_players } lb1, log)

/-- The loop of step_bid, with fuel; none models an infinite loop.  The
error result models the PyErr raised in the catch-all match arm; the Env it
carries is the state of self at that point. -/
def stepBidGo (pol : Policy) (verbose : Bool) :
    Nat → Env → Nat → Option (Env × Option String × List String)
  | 0, _, _ => none
  | fuel + 1, st, lb =>
    let r := bidIter pol verbose st lb
    match r.1 with
    | BidStep.brk st1 => some (st1, none, r.2)
    | BidStep.invalid st1 => some (st1, some "Error: not valid action", r.2)
    | BidStep.cont st1 lb1 =>
      (stepBidGo pol verbose fuel st1 lb1).map (fun q => (q.1, q.2.1, r.2 ++ q.2.2))

/-- step_bid (lib.rs 282-362): initialise last_bet to the player before the
first actor, then loop. -/
def step_bid (pol : Policy) (verbose : Bool) (fuel : Nat) (st : Env) :
    Option (Env × Option String × List String) :=
  stepBidGo pol verbose fuel st ((st.current_player + st.num_players - 1) % st.num_players)

/-- A template state used to build the concrete states of witnesses and
counterexamples: fields not mentioned at a use site are irrelevant there. -/
def mkEnv (agents : List Nat) (names : List String) («stacks» bets : List Int)
    (folded all_in : List Bool) : Env :=
  { agents := agents
    dead_agents := []
    names := names
    dead_names := []
    num_players := agents.length
    small_blind := 5
    big_blind := 10
    max_raise := 10
    initial_stack := 100
    «stacks» := «stacks»
    dealer_pos := 0
    bets := bets
    folded := folded
    all_in := all_in
    rewards := List.replicate agents.length 0
    current_phase := Phase.preflop
    current_player := 0
    deck := []
    player_cards := List.replicate agents.length []
    community_cards := [] }

example : maxBet [3, 7, 2] = 7 := by decide

example :
    (apply_bet (mkEnv [0, 1] ["player_A", "player_B"] [100, 100] [0, 0]
      [false, false] [false, false]) 0 100).all_in = [true, false] := by decide

/-- advance_phase (lib.rs 365-399).  Result: new state, raised error (if
any), printed log.  On a failed deal the already-popped cards are gone from
the deck, as in the source. -/
def advance_phase (verbose : Bool) (st : Env) : Env × Option String × List String :=
  let log := if verbose then ["End of phase"] else []
  match st.current_phase with
  | Phase.preflop =>
    let stA := { st with current_player := (st.dealer_pos + 1) % st.num_players }
    match stA.deck with
    | c1 :: c2 :: c3 :: rest =>
      ({ stA with community_cards := [c1, c2, c3], deck := rest, current_phase := Phase.flop },
       none, log)
    | _ => ({ stA with deck := [] }, some "Deck is empty", log)
  | Phase.flop =>
    let stA := { st with current_player := (st.dealer_pos + 1) % st.num_players }
    match stA.deck with
    | c :: rest =>
      ({ stA with community_cards := stA.community_cards ++ [c], deck := rest, current_phase := Phase.turn },
       none, log)
    | [] => (stA, some "Deck is empty", log)
  | Phase.turn =>
    let stA := { st with current_player := (st.dealer_pos + 1) % st.num_players }
    match stA.deck with
    | c :: rest =>
      ({ stA with community_cards := stA.community_cards ++ [c], deck := rest, current_phase := Phase.river },
       none, log)
    | [] => (stA, some "Deck is empty", log)
  | Phase.river => ({ st with current_phase := Phase.showdown }, none, log)
  | Phase.showdown => (st, some "Error of phase", log)

/-- kill (lib.rs 402-413): remove index player from every parallel array,
moving the agent and the name to the dead lists, and decrement num_players. -/
def kill (st : Env) (player : Nat) : Env :=
  { st with
    «stacks» := st.stacks.eraseIdx player
    bets := st.bets.eraseIdx player
    agents := st.agents.eraseIdx player
    dead_agents := st.dead_agents ++ [st.agents.getD player 0]
    names := st.names.eraseIdx player
    dead_names := st.dead_names ++ [st.names.getD player ""]
    folded := st.folded.eraseIdx player
    all_in := st.all_in.eraseIdx player
    rewards := st.rewards.eraseIdx player
    player_cards := st.player_cards.eraseIdx player
    num_players := st.num_players - 1 }

/-- Deal two hole cards to each of n players off the top of the deck
(lib.rs 164-170); none when the deck runs out. -/
def dealHole : Nat → List String → Option (List (List String) × List String)
  | 0, d => some ([], d)
  | k + 1, d =>
    match d with
    | c1 :: c2 :: rest => (dealHole k rest).map (fun r => ([c1, c2] :: r.1, r.2))
    | _ => none

/-- The player_cards array left behind when the dealing loop of reset fails
midway (lib.rs 164-171): reset first reassigns vec![Vec::new(); n], then
fills index i per iteration, so on a failed pop the prefix dealt so far is
kept and the remaining entries stay empty. -/
def dealPartial : Nat → List String → List (List String)
  | 0, _ => []
  | k + 1, c1 :: c2 :: rest => [c1, c2] :: dealPartial k rest
  | k + 1, _ => List.replicate (k + 1) []

/-- reset (lib.rs 144-184).  The shuffled deck is an oracle input (the
source builds the 52 cards and shuffles with thread_rng); the list is in
draw order.  Result: new state and raised error, if any. -/
def reset (newDeck : List String) (st : Env) : Env × Option String :=
  let n := st.num_players
  let dealer := (st.dealer_pos + 1) % n
  let st1 := { st with
    bets := List.replicate n 0
    folded := List.replicate n false
    all_in := List.replicate n false
    rewards := List.replicate n 0
    current_phase := Phase.preflop
    dealer_pos := dealer
    current_player := (dealer + 3) % n
    deck := newDeck
    community_cards := [] }
  match dealHole n newDeck with
  | none => ({ st1 with player_cards := dealPartial n newDeck, deck := [] },
      some "Deck is empty")
  | some r =>
    let st2 := { st1 with player_cards := r.1, deck := r.2 }
    let sb_pos := (dealer + 1) % n
    let bb_pos := (dealer + 2) % n
    let st3 := apply_bet st2 sb_pos (min st2.small_blind (st2.stacks.getD sb_pos 0))
    let st4 := apply_bet st3 bb_pos (min st3.big_blind (st3.stacks.getD bb_pos 0))
    ({ st4 with max_raise := maxBet st4.bets }, none)

/-- revive (lib.rs 558-575): re-append all dead agents and names, reset the
stacks to the initial stack and the dealer position to 0, then reset. -/
def revive (newDeck : List String) (st : Env) : Env × Option String :=
  let st1 := { st with
    agents := st.agents ++ st.dead_agents
    dead_agents := []
    names := st.names ++ st.dead_names
    dead_names := [] }
  let st2 := { st1 with num_players := st1.agents.length }
  let st3 := { st2 with
    «stacks» := List.replicate st2.num_players st2.initial_stack
    dealer_pos := 0 }
  reset newDeck st3

/-- Names of the non-folded players, in seat order (the eligibility pushes
of lib.rs 441-443 and 469-471 select exactly these names). -/
def liveNames : List String → List Bool → List String
  | nm :: nms, f :: fs => if f then liveNames nms fs else nm :: liveNames nms fs
  | _, _ => []

/-- Bets of the non-folded players, in seat order. -/
def liveVals : List Int → List Bool → List Int
  | b :: bs, f :: fs => if f then liveVals bs fs else b :: liveVals bs fs
  | _, _ => []

/-- The minimum over nonzero bets of non-folded players (lib.rs 450-460);
none is the pot-construction loop's exit condition. -/
def minLive : List Int → List Bool → Option Int
  | b :: bs, f :: fs =>
    let m := minLive bs fs
    if b ≠ 0 ∧ f = false then
      some (match m with
            | none => b
            | some v => min b v)
    else m
  | _, _ => none

/-- One pass of the pot-peeling loop body (lib.rs 463-473): for each player
take n = min(val, remaining bet); when n is nonzero remove it from the
remaining bet, add it to the pot being built, and record the player's name
when the player is not folded.  Returns (new bets, pot amount, pot names). -/
def peelLayer (val : Int) : List Int → List Bool → List String → List Int × Int × List String
  | b :: bs, f :: fs, nm :: nms =>
    let r := peelLayer val bs fs nms
    let n := min val b
    if n ≠ 0 then ((b - n) :: r.1, n + r.2.1, if f then r.2.2 else nm :: r.2.2)
    else (b :: r.1, r.2.1, r.2.2)
  | _, _, _ => ([], 0, [])

/-- The side-pot construction loop (lib.rs 446-480), with fuel; none models
nontermination (possible over i32 only with negative bets).  The result
includes the empty trailing pot the source leaves behind (pots starts as
vec![0] and every iteration pushes a fresh 0). -/
def potLoop : Nat → List Int → List Bool → List String → Option (List Int × List (List String))
  | 0, _, _, _ => none
  | fuel + 1, bets, folded, names =>
    match minLive bets folded with
    | none => some ([0], [[]])
    | some val =>
      let r := peelLayer val bets folded names
      (potLoop fuel r.1 folded names).map (fun q => (r.2.1 :: q.1, r.2.2 :: q.2))

/-- Fuel sufficient for potLoop on nonnegative bets: total chips + 1. -/
def potFuel (bets : List Int) : Nat := (bets.map Int.toNat).sum + 1

/-- Pot construction in resolution (lib.rs 433-481): with no all-in player,
a single pot holding every bet, eligible to the non-folded players;
otherwise the layer-peeling loop. -/
def buildPots (st : Env) : Option (List Int × List (List String)) :=
  if st.all_in.count true = 0 then
    some ([st.bets.sum], [liveNames st.names st.folded])
  else
    potLoop (potFuel st.bets) st.bets st.folded st.names

/-- The (name, rank) list of lib.rs 422-429: one entry per non-folded
player, in seat order, ranking board ++ hole cards through the oracle. -/
def scoresOf (rank : Rank) (board : String) :
    List String → List Bool → List (List String) → List (String × Int)
  | nm :: nms, f :: fs, cs :: css =>
    if f then scoresOf rank board nms fs css
    else (nm, rank (board ++ String.join cs)) :: scoresOf rank board nms fs css
  | _, _, _ => []

/-- Stable insertion for descending sort on the rank component; models
scores.sort_by_key(Reverse(rank)) of lib.rs 431. -/
def insertDesc (x : String × Int) : List (String × Int) → List (String × Int)
  | [] => [x]
  | y :: tl => if y.2 ≤ x.2 then x :: y :: tl else y :: insertDesc x tl

def sortDesc : List (String × Int) → List (String × Int)
  | [] => []
  | x :: tl => insertDesc x (sortDesc tl)

/-- Continuation of the winner scan after the first eligible contender with
rank r (lib.rs 499-512): later eligible contenders with equal rank join; the
first eligible contender with a different rank stops the scan (break);
ineligible entries are skipped. -/
def pickTies (pn : List String) (r : Int) : List (String × Int) → List String
  | [] => []
  | (nm, r1) :: tl =>
    if nm ∈ pn then (if r1 = r then nm :: pickTies pn r tl else [])
    else pickTies pn r tl

/-- Winner determination for one pot (lib.rs 497-512). -/
def pickWinners (pn : List String) : List (String × Int) → List String
  | [] => []
  | (nm, r1) :: tl => if nm ∈ pn then nm :: pickTies pn r1 tl else pickWinners pn tl

/-- Gain distribution for one pot (lib.rs 518-526): every current player
whose name is among the winners gains takes. -/
def payWinners (winners : List String) (takes : Int) : List Int → List String → List Int
  | s :: ss, nm :: nms =>
    (if nm ∈ winners then s + takes else s) :: payWinners winners takes ss nms
  | ss, _ => ss

/-- The pot-distribution loop (lib.rs 488-529).  A zero pot is skipped
without advancing the pots_names index i (the continue skips the i += 1 at
the bottom of the loop).  none models the division-by-zero panic (p % 0 on
i32) the source hits when a nonzero pot has no eligible winner.  On the
nonnegative amounts of interest Lean's / and % agree with Rust's. -/
def distribute (verbose : Bool) (scores : List (String × Int)) (names : List String) :
    List Int → List (List String) → List Int → Int → Nat →
    Option (List Int × Int × List String)
  | [], _, stks, rest, _ => some (stks, rest, [])
  | p :: ps, pns, stks, rest, i =>
    if p = 0 then distribute verbose scores names ps pns stks rest i
    else
      let winners := pickWinners (pns.getD i []) scores
      if winners.length = 0 then none
      else
        let w : Int := (winners.length : Int)
        let takes := p / w
        let log := if verbose then ["Winner pot"] else []
        (distribute verbose scores names ps pns (payWinners winners takes stks names)
            (rest + p % w) (i + 1)).map
          (fun r => (r.1, r.2.1, log ++ r.2.2))

/-- The settlement loop (lib.rs 531-543), with fuel (it runs at most
num_players passes; resolution passes num_players + 1): subtract each
player's bet from the stack; a player left with exactly 0 is killed and the
cursor stays in place (j -= 1 before the j += 1). -/
def settleLoop (verbose : Bool) : Nat → Nat → Env → Env × List String
  | 0, _, st => (st, [])
  | fuel + 1, j, st =>
    if j < st.num_players then
      let st1 := { st with
        «stacks» := st.stacks.set j (st.stacks.getD j 0 - st.bets.getD j 0) }
      if st1.stacks.getD j 0 = 0 then
        let log := if verbose then [(st1.names.getD j "") ++ " lost"] else []
        let r := settleLoop verbose fuel j (kill st1 j)
        (r.1, log ++ r.2)
      else settleLoop verbose fuel (j + 1) st1
    else (st, [])

/-- resolution (lib.rs 416-555) up to, but not including, the final
chip-conservation check; returns the settled state, the accumulated
remainder rest of the pot splits, and the log. -/
def resolutionCore (rank : Rank) (verbose : Bool) (st : Env) :
    Option (Env × Int × List String) :=
  let board := String.join st.community_cards
  let scores := sortDesc (scoresOf rank board st.names st.folded st.player_cards)
  match buildPots st with
  | none => none
  | some ptn =>
    let log0 := if verbose then ["pots"] else []
    match distribute verbose scores st.names ptn.1 ptn.2 st.stacks 0 0 with
    | none => none
    | some dr =>
      let r := settleLoop verbose (st.num_players + 1) 0 { st with «stacks» := dr.1 }
      let log2 := if verbose then ["State of stacks"] else []
      some (r.1, dr.2.1, log0 ++ dr.2.2 ++ r.2 ++ log2)

/-- resolution including the final fatal check (lib.rs 550-552): none models
the chip-conservation panic. -/
def resolution (rank : Rank) (verbose : Bool) (st : Env) : Option (Env × List String) :=
  match resolutionCore rank verbose st with
  | none => none
  | some r => if r.1.stacks.sum + r.2.1 = st.stacks.sum then some (r.1, r.2.2) else none

/-- Result of the inner phase loop of play_game: state, episode counter i
(which the source increments once per phase iteration), propagated error,
log. -/
structure POut where
  env : Env
  i : Int
  err : Option String
  log : List String

/-- Result of the hand / episode loops of play_game; dcount counts the
resets performed so far (it indexes the deck oracle). -/
structure GOut where
  env : Env
  i : Int
  dcount : Nat
  err : Option String
  log : List String

/-- The innermost loop of play_game (lib.rs 585-610), with fuel: one
iteration per street, breaking after resolution at Showdown.  The same fuel
bounds the step_bid loop. -/
def phaseLoop (pol : Policy) (rank : Rank) (verbose : Bool) :
    Nat → Int → Env → Option POut
  | 0, _, _ => none
  | fuel + 1, i, st =>
    let log0 := (if i % 1000 = 0 then ["episode"] else []) ++
      (if verbose then ["overall_state"] else [])
    let i1 := i + 1
    let afterBid : Option (Env × Option String × List String) :=
      if st.folded.count true ≠ st.num_players - 1 then step_bid pol verbose fuel st
      else some (st, none, [])
    match afterBid with
    | none => none
    | some b =>
      match b.2.1 with
      | some e => some ⟨b.1, i1, some e, log0 ++ b.2.2⟩
      | none =>
        let ap := advance_phase verbose b.1
        match ap.2.1 with
        | some e => some ⟨ap.1, i1, some e, log0 ++ b.2.2 ++ ap.2.2⟩
        | none =>
          if ap.1.current_phase = Phase.showdown then
            let log3 := if verbose then ["overall_state"] else []
            match resolution rank verbose ap.1 with
            | none => none
            | some r => some ⟨r.1, i1, none, log0 ++ b.2.2 ++ ap.2.2 ++ log3 ++ r.2⟩
          else
            (phaseLoop pol rank verbose fuel i1 ap.1).map
              (fun r => ⟨r.env, r.i, r.err, log0 ++ b.2.2 ++ ap.2.2 ++ r.log⟩)

/-- The while num_players > 1 loop of play_game (lib.rs 582-611): reset a
fresh hand (consuming the next oracle deck), play its streets, repeat. -/
def handLoop (pol : Policy) (rank : Rank) (decks : Nat → List String) (verbose : Bool) :
    Nat → Int → Nat → Env → Option GOut
  | 0, _, _, _ => none
  | fuel + 1, i, dcount, st =>
    if 1 < st.num_players then
      match reset (decks dcount) st with
      | (st1, some e) => some ⟨st1, i, dcount + 1, some e, []⟩
      | (st1, none) =>
        match phaseLoop pol rank verbose fuel i st1 with
        | none => none
        | some r =>
          match r.err with
          | some e => some ⟨r.env, r.i, dcount + 1, some e, r.log⟩
          | none =>
            (handLoop pol rank decks verbose fuel r.i (dcount + 1) r.env).map
              (fun q => ⟨q.env, q.i, q.dcount, q.err, r.log ++ q.log⟩)
    else some ⟨st, i, dcount, none, []⟩

/-- The while i <= episode loop of play_game (lib.rs 581-613): play hands
until one player remains, then revive everyone and go again. -/
def episodeLoop (pol : Policy) (rank : Rank) (decks : Nat → List String) (verbose : Bool)
    (episode : Int) : Nat → Int → Nat → Env → Option GOut
  | 0, _, _, _ => none
  | fuel + 1, i, dcount, st =>
    if i ≤ episode then
      match handLoop pol rank decks verbose fuel i dcount st with
      | none => none
      | some r =>
        match r.err with
        | some e => some ⟨r.env, r.i, r.dcount, some e, r.log⟩
        | none =>
          match revive (decks r.dcount) r.env with
          | (st2, some e) => some ⟨st2, r.i, r.dcount + 1, some e, r.log⟩
          | (st2, none) =>
            (episodeLoop pol rank decks verbose episode fuel r.i (r.dcount + 1) st2).map
              (fun q => ⟨q.env, q.i, q.dcount, q.err, r.log ++ q.log⟩)
    else some ⟨st, i, dcount, none, []⟩

/-- play_game (lib.rs 578-616): run the episode loop from i = 1; the result
is the final state, the propagated error if any, and everything printed.
none models nontermination (insufficient fuel) or a resolution panic. -/
def play_game (pol : Policy) (rank : Rank) (decks : Nat → List String) (verbose : Bool)
    (fuel : Nat) (episode : Int) (st : Env) : Option (Env × Option String × List String) :=
  (episodeLoop pol rank decks verbose episode fuel 1 0 st).map (fun r => (r.env, r.err, r.log))

/-- The 3-player all-in scenario of the spec: A contributed 30 (all-in),
B contributed 80 (all-in), C contributed 200. -/
def c1Env : Env :=
  mkEnv [0, 1, 2] ["player_A", "player_B", "player_C"] [30, 80, 200] [30, 80, 200]
    [false, false, false] [true, true, false]

example :
    buildPots c1Env =
      some ([90, 100, 120, 0],
        [["player_A", "player_B", "player_C"], ["player_B", "player_C"], ["player_C"], []]) := by
  decide

/-! ### List helper lemmas -/

lemma getD_set_self {α : Type _} (l : List α) (j : Nat) (a d : α) (h : j < l.length) :
    (l.set j a).getD j d = a := by
  simp [List.getD_eq_getElem?_getD, List.getElem?_set_self h]

lemma getD_set_ne {α : Type _} (l : List α) (i j : Nat) (a d : α) (h : i ≠ j) :
    (l.set i a).getD j d = l.getD j d := by
  simp [List.getD_eq_getElem?_getD, List.getElem?_set_ne h]

lemma sum_set_int (l : List Int) : ∀ (j : Nat) (a : Int), j < l.length →
    (l.set j a).sum = l.sum - l.getD j 0 + a := by
  induction l with
  | nil => intro j a h; simp at h
  | cons hd tl ih =>
    intro j a h
    cases j with
    | zero => simp [List.set, List.getD]; ring
    | succ j =>
      simp only [List.set, List.sum_cons, List.getD_cons_succ]
      rw [ih j a (by simpa using h)]
      ring

lemma sum_eraseIdx_int (l : List Int) : ∀ (j : Nat), j < l.length →
    (l.eraseIdx j).sum = l.sum - l.getD j 0 := by
  induction l with
  | nil => intro j h; simp at h
  | cons hd tl ih =>
    intro j h
    cases j with
    | zero => simp [List.eraseIdx, List.getD]
    | succ j =>
      simp only [List.eraseIdx, List.sum_cons, List.getD_cons_succ]
      rw [ih j (by simpa using h)]
      ring

lemma drop_eraseIdx_eq {α : Type _} (l : List α) : ∀ (j : Nat),
    (l.eraseIdx j).drop j = l.drop (j + 1) := by
  induction l with
  | nil => intro j; simp [List.eraseIdx]
  | cons hd tl ih =>
    intro j
    cases j with
    | zero => simp [List.eraseIdx]
    | succ j => simpa [List.eraseIdx] using ih j

lemma sum_drop_succ (l : List Int) : ∀ (j : Nat), j < l.length →
    (l.drop j).sum = l.getD j 0 + (l.drop (j + 1)).sum := by
  induction l with
  | nil => intro j h; simp at h
  | cons hd tl ih =>
    intro j h
    cases j with
    | zero => simp [List.getD]
    | succ j => simpa [List.getD_cons_succ] using ih j (by simpa using h)

lemma mem_set_of_getD_ne {α : Type _} (l : List α) :
    ∀ (i : Nat) (a b d : α), b ∈ l → l.getD i d ≠ b → b ∈ l.set i a := by
  induction l with
  | nil => intro i a b d hb; simp at hb
  | cons hd tl ih =>
    intro i a b d hb hne
    cases i with
    | zero =>
      rcases List.mem_cons.mp hb with h | h
      · exact absurd (by simpa [List.getD] using h.symm) hne
      · exact List.mem_cons_of_mem _ h
    | succ i =>
      rcases List.mem_cons.mp hb with h | h
      · simp [List.set, h]
      · exact List.mem_cons_of_mem _ (ih i a b d h (by simpa [List.getD_cons_succ] using hne))

lemma mem_set_cases {α : Type _} (l : List α) :
    ∀ (i : Nat) (a x : α), x ∈ l.set i a → x ∈ l ∨ x = a := by
  induction l with
  | nil => intro i a x hx; simp [List.set] at hx
  | cons hd tl ih =>
    intro i a x hx
    cases i with
    | zero =>
      rcases List.mem_cons.mp hx with h | h
      · exact Or.inr h
      · exact Or.inl (List.mem_cons_of_mem _ h)
    | succ i =>
      rcases List.mem_cons.mp hx with h | h
      · exact Or.inl (by simp [h])
      · rcases ih i a x h with h1 | h1
        · exact Or.inl (List.mem_cons_of_mem _ h1)
        · exact Or.inr h1

/-! ### vecMax / maxBet lemmas -/

lemma vecMax_spec : ∀ (l : List Int), l ≠ [] →
    ∃ m, vecMax l = some m ∧ m ∈ l ∧ ∀ x ∈ l, x ≤ m := by
  intro l
  induction l with
  | nil => intro h; exact absurd rfl h
  | cons b bs ih =>
    intro _
    cases bs with
    | nil => exact ⟨b, by simp [vecMax], by simp, by simp⟩
    | cons c cs =>
      obtain ⟨m, hm, hmem, hub⟩ := ih (by simp)
      refine ⟨max b m, by simp [vecMax] at hm ⊢; rw [hm], ?_, ?_⟩
      · rcases max_choice b m with h | h
        · simp [h]
        · rw [h]; exact List.mem_cons_of_mem _ hmem
      · intro x hx
        rcases List.mem_cons.mp hx with h | h
        · simp [h]
        · exact le_trans (hub x h) (le_max_right _ _)

lemma vecMax_eq_of (l : List Int) (m : Int) (hm : m ∈ l) (hub : ∀ x ∈ l, x ≤ m) :
    vecMax l = some m := by
  obtain ⟨m1, h1, hmem1, hub1⟩ := vecMax_spec l (List.ne_nil_of_mem hm)
  have : m1 = m := le_antisymm (hub m1 hmem1) (hub1 m hm)
  rw [h1, this]

lemma le_maxBet (l : List Int) (x : Int) (hx : x ∈ l) : x ≤ maxBet l := by
  obtain ⟨m, h1, _, hub⟩ := vecMax_spec l (List.ne_nil_of_mem hx)
  simpa [maxBet, h1] using hub x hx

lemma maxBet_eq_of (l : List Int) (m : Int) (hm : m ∈ l) (hub : ∀ x ∈ l, x ≤ m) :
    maxBet l = m := by
  simp [maxBet, vecMax_eq_of l m hm hub]

/-! ### apply_bet and the raise arm -/

lemma apply_bet_spec (st : Env) (p : Nat) (a : Int) (hp : p < st.bets.length) :
    apply_bet st p a =
      { st with bets := st.bets.set p a
                all_in := if st.stacks.getD p 0 = a then st.all_in.set p true else st.all_in } := by
  have hg : (st.bets.set p a).getD p 0 = a := getD_set_self _ _ _ _ hp
  by_cases h : st.stacks.getD p 0 = a
  · rw [if_pos h]
    simp only [apply_bet]
    rw [hg, h, if_pos (show a - a = 0 by ring)]
  · rw [if_neg h]
    simp only [apply_bet]
    rw [hg, if_neg (show ¬(st.stacks.getD p 0 - a = 0) by omega)]

lemma apply_bet_max_raise (st : Env) (p : Nat) (a : Int) :
    (apply_bet st p a).max_raise = st.max_raise := by
  simp only [apply_bet]
  split <;> rfl

lemma apply_bet_stacks (st : Env) (p : Nat) (a : Int) :
    (apply_bet st p a).stacks = st.stacks := by
  simp only [apply_bet]
  split <;> rfl

lemma apply_bet_folded (st : Env) (p : Nat) (a : Int) :
    (apply_bet st p a).folded = st.folded := by
  simp only [apply_bet]
  split <;> rfl

lemma apply_bet_num_players (st : Env) (p : Nat) (a : Int) :
    (apply_bet st p a).num_players = st.num_players := by
  simp only [apply_bet]
  split <;> rfl

lemma apply_bet_bets (st : Env) (p : Nat) (a : Int) :
    (apply_bet st p a).bets = st.bets.set p a := by
  simp only [apply_bet]
  split <;> rfl

/-- C9 helper: the witness state. -/
def c9Env : Env :=
  mkEnv [0, 1, 2] ["player_A", "player_B", "player_C"] [100, 60, 80] [10, 20, 30]
    [false, false, false] [false, false, false]

/-- C9: apply_bet(player, amount) sets that player's current bet to the
absolute amount, sets that player's all-in flag exactly when the amount
equals the player's stack (and otherwise leaves the flag as it was), and
changes nothing else: stacks and every other field of the table are
untouched — in particular stacks are never debited here. -/
theorem c9_apply_bet_frame (st : Env) (p : Nat) (a : Int) (hp : p < st.bets.length) :
    (apply_bet st p a).bets = st.bets.set p a ∧
    (apply_bet st p a).all_in =
      (if st.stacks.getD p 0 = a then st.all_in.set p true else st.all_in) ∧
    (apply_bet st p a).stacks = st.stacks ∧
    (apply_bet st p a).folded = st.folded ∧
    (apply_bet st p a).agents = st.agents ∧
    (apply_bet st p a).dead_agents = st.dead_agents ∧
    (apply_bet st p a).names = st.names ∧
    (apply_bet st p a).dead_names = st.dead_names ∧
    (apply_bet st p a).num_players = st.num_players ∧
    (apply_bet st p a).small_blind = st.small_blind ∧
    (apply_bet st p a).big_blind = st.big_blind ∧
    (apply_bet st p a).max_raise = st.max_raise ∧
    (apply_bet st p a).initial_stack = st.initial_stack ∧
    (apply_bet st p a).dealer_pos = st.dealer_pos ∧
    (apply_bet st p a).rewards = st.rewards ∧
    (apply_bet st p a).current_phase = st.current_phase ∧
    (apply_bet st p a).current_player = st.current_player ∧
    (apply_bet st p a).deck = st.deck ∧
    (apply_bet st p a).player_cards = st.player_cards ∧
    (apply_bet st p a).community_cards = st.community_cards := by
  rw [apply_bet_spec st p a hp]
  refine ⟨rfl, ?_, rfl, rfl, rfl, rfl, rfl, rfl, rfl, rfl, rfl, rfl, rfl, rfl, rfl, rfl,
    rfl, rfl, rfl, rfl⟩
  split <;> rfl

/-- Witness for C9 at a concrete input (player 1 bets their whole stack of
60, so the all-in flag is set). -/
theorem c9_apply_bet_frame_witness :
    (apply_bet c9Env 1 60).bets = c9Env.bets.set 1 60 ∧
    (apply_bet c9Env 1 60).all_in =
      (if c9Env.stacks.getD 1 0 = 60 then c9Env.all_in.set 1 true else c9Env.all_in) ∧
    (apply_bet c9Env 1 60).stacks = c9Env.stacks ∧
    (apply_bet c9Env 1 60).folded = c9Env.folded ∧
    (apply_bet c9Env 1 60).agents = c9Env.agents ∧
    (apply_bet c9Env 1 60).dead_agents = c9Env.dead_agents ∧
    (apply_bet c9Env 1 60).names = c9Env.names ∧
    (apply_bet c9Env 1 60).dead_names = c9Env.dead_names ∧
    (apply_bet c9Env 1 60).num_players = c9Env.num_players ∧
    (apply_bet c9Env 1 60).small_blind = c9Env.small_blind ∧
    (apply_bet c9Env 1 60).big_blind = c9Env.big_blind ∧
    (apply_bet c9Env 1 60).max_raise = c9Env.max_raise ∧
    (apply_bet c9Env 1 60).initial_stack = c9Env.initial_stack ∧
    (apply_bet c9Env 1 60).dealer_pos = c9Env.dealer_pos ∧
    (apply_bet c9Env 1 60).rewards = c9Env.rewards ∧
    (apply_bet c9Env 1 60).current_phase = c9Env.current_phase ∧
    (apply_bet c9Env 1 60).current_player = c9Env.current_player ∧
    (apply_bet c9Env 1 60).deck = c9Env.deck ∧
    (apply_bet c9Env 1 60).player_cards = c9Env.player_cards ∧
    (apply_bet c9Env 1 60).community_cards = c9Env.community_cards :=
  c9_apply_bet_frame c9Env 1 60 (by decide)

/-- C6: applying a Raise to absolute amount a updates the minimum-raise
floor to max(floor, a - maxBet) where maxBet is the maximum current bet just
before the raise is applied; in particular the floor never decreases. -/
theorem c6_raise_floor (st : Env) (a : Int) :
    (applyRaise st a).max_raise = max st.max_raise (a - maxBet st.bets) ∧
    st.max_raise ≤ (applyRaise st a).max_raise := by
  have h1 : (applyRaise st a).max_raise =
      if a - maxBet st.bets > st.max_raise then a - maxBet st.bets else st.max_raise := by
    simp only [applyRaise]
    rw [apply_bet_max_raise]
    split <;> rfl
  constructor
  · rw [h1]
    split
    · rename_i h; exact (max_eq_right (le_of_lt h)).symm
    · rename_i h; exact (max_eq_left (by omega)).symm
  · rw [h1]
    split
    · rename_i h; omega
    · exact le_refl _

/-! ### Counting folded / all-in flags -/

lemma count_exactly_one : ∀ (f a : List Bool), f.length = a.length →
    (∀ i < f.length, (f.getD i false = true ∨ a.getD i false = true)) →
    (∀ i < f.length, ¬(f.getD i false = true ∧ a.getD i false = true)) →
    f.count true + a.count true = f.length := by
  intro f
  induction f with
  | nil =>
    intro a hlen _ _
    cases a with
    | nil => simp
    | cons _ _ => simp at hlen
  | cons fh ft ih =>
    intro a hlen h1 h2
    cases a with
    | nil => simp at hlen
    | cons ah atl =>
      have hh1 := h1 0 (by simp)
      have hh2 := h2 0 (by simp)
      have htl := ih atl (by simpa using hlen)
        (fun i hi => by simpa [List.getD_cons_succ] using h1 (i + 1) (by simpa using hi))
        (fun i hi => by simpa [List.getD_cons_succ] using h2 (i + 1) (by simpa using hi))
      simp only [List.getD_cons_zero] at hh1 hh2
      cases fh <;> cases ah <;> simp_all [List.count_cons] <;> omega

lemma count_endgame : ∀ (f a : List Bool) (p : Nat), f.length = a.length → p < f.length →
    f.getD p false = false → a.getD p false = false →
    (∀ i < f.length, i ≠ p → (f.getD i false = true ∨ a.getD i false = true)) →
    (∀ i < f.length, ¬(f.getD i false = true ∧ a.getD i false = true)) →
    f.count true + a.count true = f.length - 1 := by
  intro f
  induction f with
  | nil => intro a p _ hp; simp at hp
  | cons fh ft ih =>
    intro a p hlen hp hfp hap h1 h2
    cases a with
    | nil => simp at hlen
    | cons ah atl =>
      cases p with
      | zero =>
        simp only [List.getD_cons_zero] at hfp hap
        subst hfp
        subst hap
        have htl := count_exactly_one ft atl (by simpa using hlen)
          (fun i hi => by
            simpa [List.getD_cons_succ] using h1 (i + 1) (by simpa using hi) (by simp))
          (fun i hi => by simpa [List.getD_cons_succ] using h2 (i + 1) (by simpa using hi))
        simp [List.count_cons, htl]
      | succ p =>
        have hplen : p < ft.length := by simpa using hp
        have hh1 := h1 0 (by simp) (by simp)
        have hh2 := h2 0 (by simp)
        have htl := ih atl p (by simpa using hlen) hplen
          (by simpa [List.getD_cons_succ] using hfp) (by simpa [List.getD_cons_succ] using hap)
          (fun i hi hne => by
            simpa [List.getD_cons_succ] using h1 (i + 1) (by simpa using hi) (by omega))
          (fun i hi => by simpa [List.getD_cons_succ] using h2 (i + 1) (by simpa using hi))
        simp only [List.getD_cons_zero] at hh1 hh2
        cases fh <;> cases ah <;> simp_all [List.count_cons] <;> omega

lemma count_both_le : ∀ (f a : List Bool), f.length = a.length →
    (∀ i < f.length, ¬(f.getD i false = true ∧ a.getD i false = true)) →
    f.count true + a.count true ≤ f.length := by
  intro f
  induction f with
  | nil =>
    intro a hlen _
    cases a with
    | nil => simp
    | cons _ _ => simp at hlen
  | cons fh ft ih =>
    intro a hlen h2
    cases a with
    | nil => simp at hlen
    | cons ah atl =>
      have hh2 := h2 0 (by simp)
      have htl := ih atl (by simpa using hlen)
        (fun i hi => by simpa [List.getD_cons_succ] using h2 (i + 1) (by simpa using hi))
      simp only [List.getD_cons_zero] at hh2
      cases fh <;> cases ah <;> simp_all [List.count_cons] <;> omega

lemma count_one_clean : ∀ (f a : List Bool) (p : Nat), f.length = a.length → p < f.length →
    f.getD p false = false → a.getD p false = false →
    (∀ i < f.length, ¬(f.getD i false = true ∧ a.getD i false = true)) →
    f.count true + a.count true ≤ f.length - 1 := by
  intro f
  induction f with
  | nil => intro a p _ hp; simp at hp
  | cons fh ft ih =>
    intro a p hlen hp hfp hap h2
    cases a with
    | nil => simp at hlen
    | cons ah atl =>
      cases p with
      | zero =>
        simp only [List.getD_cons_zero] at hfp hap
        subst hfp
        subst hap
        have htl := count_both_le ft atl (by simpa using hlen)
          (fun i hi => by simpa [List.getD_cons_succ] using h2 (i + 1) (by simpa using hi))
        simp only [List.count_cons, List.length_cons]
        simp
        omega
      | succ p =>
        have hplen : p < ft.length := by simpa using hp
        have hh2 := h2 0 (by simp)
        have htl := ih atl p (by simpa using hlen) hplen
          (by simpa [List.getD_cons_succ] using hfp) (by simpa [List.getD_cons_succ] using hap)
          (fun i hi => by simpa [List.getD_cons_succ] using h2 (i + 1) (by simpa using hi))
        simp only [List.getD_cons_zero] at hh2
        cases fh <;> cases ah <;> simp_all [List.count_cons] <;> omega

lemma count_two_clean : ∀ (f a : List Bool) (p q : Nat), f.length = a.length →
    p < f.length → q < f.length → p ≠ q →
    f.getD p false = false → a.getD p false = false →
    f.getD q false = false → a.getD q false = false →
    (∀ i < f.length, ¬(f.getD i false = true ∧ a.getD i false = true)) →
    f.count true + a.count true ≤ f.length - 2 := by
  intro f
  induction f with
  | nil => intro a p q _ hp; simp at hp
  | cons fh ft ih =>
    intro a p q hlen hp hq hpq hfp hap hfq haq h2
    cases a with
    | nil => simp at hlen
    | cons ah atl =>
      cases p with
      | zero =>
        cases q with
        | zero => exact absurd rfl hpq
        | succ q =>
          have hqlen : q < ft.length := by simpa using hq
          simp only [List.getD_cons_zero] at hfp hap
          subst hfp
          subst hap
          have htl := count_one_clean ft atl q (by simpa using hlen) hqlen
            (by simpa [List.getD_cons_succ] using hfq) (by simpa [List.getD_cons_succ] using haq)
            (fun i hi => by simpa [List.getD_cons_succ] using h2 (i + 1) (by simpa using hi))
          simp [List.count_cons]
          omega
      | succ p =>
        have hplen : p < ft.length := by simpa using hp
        cases q with
        | zero =>
          simp only [List.getD_cons_zero] at hfq haq
          subst hfq
          subst haq
          have htl := count_one_clean ft atl p (by simpa using hlen) hplen
            (by simpa [List.getD_cons_succ] using hfp) (by simpa [List.getD_cons_succ] using hap)
            (fun i hi => by simpa [List.getD_cons_succ] using h2 (i + 1) (by simpa using hi))
          simp [List.count_cons]
          omega
        | succ q =>
          have hqlen : q < ft.length := by simpa using hq
          have hh2 := h2 0 (by simp)
          have htl := ih atl p q (by simpa using hlen) hplen hqlen (by omega)
            (by simpa [List.getD_cons_succ] using hfp) (by simpa [List.getD_cons_succ] using hap)
            (by simpa [List.getD_cons_succ] using hfq) (by simpa [List.getD_cons_succ] using haq)
            (fun i hi => by simpa [List.getD_cons_succ] using h2 (i + 1) (by simpa using hi))
          simp only [List.getD_cons_zero] at hh2
          cases fh <;> cases ah <;> simp_all [List.count_cons] <;> omega

/-! ### Structure of the offered action list -/

lemma gaa_endgame (st : Env)
    (hlen : st.folded.length = st.all_in.length)
    (hp : st.current_player < st.folded.length)
    (hfp : st.folded.getD st.current_player false = false)
    (hap : st.all_in.getD st.current_player false = false)
    (hothers : ∀ i < st.folded.length, i ≠ st.current_player →
      (st.folded.getD i false = true ∨ st.all_in.getD i false = true))
    (hnd : ∀ i < st.folded.length,
      ¬(st.folded.getD i false = true ∧ st.all_in.getD i false = true)) :
    get_available_actions st =
      Offer.fold ::
        (if st.bets.getD st.current_player 0 ≠ maxBet st.bets then
          [Offer.call (min (maxBet st.bets) (st.stacks.getD st.current_player 0))]
        else []) := by
  have hcount : st.all_in.count true + st.folded.count true = st.folded.length - 1 := by
    have := count_endgame st.folded st.all_in st.current_player hlen hp hfp hap hothers hnd
    omega
  simp only [get_available_actions, hap]
  rw [if_neg (by simp), if_pos hcount]

lemma gaa_normal (st : Env)
    (hap : st.all_in.getD st.current_player false = false)
    (hcnt : st.all_in.count true + st.folded.count true ≠ st.folded.length - 1) :
    get_available_actions st =
      Offer.fold ::
        ((if st.bets.getD st.current_player 0 = maxBet st.bets then [Offer.check]
          else [Offer.call (min (maxBet st.bets) (st.stacks.getD st.current_player 0))]) ++
         (if st.stacks.getD st.current_player 0 > maxBet st.bets then
            (if st.stacks.getD st.current_player 0 ≥ maxBet st.bets * 2 then
               [Offer.raiseRange (maxBet st.bets + st.max_raise)
                  (st.stacks.getD st.current_player 0)]
             else [Offer.raiseRange (st.stacks.getD st.current_player 0)
                     (st.stacks.getD st.current_player 0)])
          else [])) := by
  simp only [get_available_actions, hap]
  rw [if_neg (by simp), if_neg hcnt]

lemma gaa_all_in_nil (st : Env) (hap : st.all_in.getD st.current_player false = true) :
    get_available_actions st = [] := by
  simp only [get_available_actions, hap]
  rfl

lemma gaa_fold_mem (st : Env) (h : get_available_actions st ≠ []) :
    Offer.fold ∈ get_available_actions st := by
  by_cases hap : st.all_in.getD st.current_player false
  · exact absurd (gaa_all_in_nil st hap) h
  · have hap' : st.all_in.getD st.current_player false = false := by
      cases hv : st.all_in.getD st.current_player false
      · rfl
      · exact absurd hv hap
    simp only [get_available_actions, hap']
    rw [if_neg (by simp)]
    split
    · exact List.mem_cons_self _ _
    · exact List.mem_cons_self _ _

lemma gaa_call_mem (st : Env) (c : Int) (h : Offer.call c ∈ get_available_actions st) :
    c = min (maxBet st.bets) (st.stacks.getD st.current_player 0) ∧
    st.bets.getD st.current_player 0 ≠ maxBet st.bets := by
  by_cases hap : st.all_in.getD st.current_player false
  · rw [gaa_all_in_nil st hap] at h
    exact absurd h (List.not_mem_nil _)
  · have hap' : st.all_in.getD st.current_player false = false := by
      cases hv : st.all_in.getD st.current_player false
      · rfl
      · exact absurd hv hap
    simp only [get_available_actions, hap'] at h
    rw [if_neg (by simp)] at h
    split at h
    · rcases List.mem_cons.mp h with h1 | h1
      · exact Offer.noConfusion h1
      · split at h1
        · rename_i hne
          injection List.mem_singleton.mp h1 with h3
          exact ⟨h3, hne⟩
        · exact absurd h1 (List.not_mem_nil _)
    · rcases List.mem_cons.mp h with h1 | h1
      · exact Offer.noConfusion h1
      · rcases List.mem_append.mp h1 with h2 | h2
        · split at h2
          · exact Offer.noConfusion (List.mem_singleton.mp h2)
          · rename_i hne
            injection List.mem_singleton.mp h2 with h3
            exact ⟨h3, hne⟩
        · split at h2
          · split at h2
            · exact Offer.noConfusion (List.mem_singleton.mp h2)
            · exact Offer.noConfusion (List.mem_singleton.mp h2)
          · exact absurd h2 (List.not_mem_nil _)

lemma gaa_raise_mem (st : Env) (lo hi : Int)
    (h : Offer.raiseRange lo hi ∈ get_available_actions st) :
    st.stacks.getD st.current_player 0 > maxBet st.bets ∧
    hi = st.stacks.getD st.current_player 0 ∧
    ((st.stacks.getD st.current_player 0 ≥ maxBet st.bets * 2 ∧
        lo = maxBet st.bets + st.max_raise) ∨
     (¬(st.stacks.getD st.current_player 0 ≥ maxBet st.bets * 2) ∧
        lo = st.stacks.getD st.current_player 0)) := by
  by_cases hap : st.all_in.getD st.current_player false
  · rw [gaa_all_in_nil st hap] at h
    exact absurd h (List.not_mem_nil _)
  · have hap' : st.all_in.getD st.current_player false = false := by
      cases hv : st.all_in.getD st.current_player false
      · rfl
      · exact absurd hv hap
    simp only [get_available_actions, hap'] at h
    rw [if_neg (by simp)] at h
    split at h
    · rcases List.mem_cons.mp h with h1 | h1
      · exact Offer.noConfusion h1
      · split at h1
        · exact Offer.noConfusion (List.mem_singleton.mp h1)
        · exact absurd h1 (List.not_mem_nil _)
    · rcases List.mem_cons.mp h with h1 | h1
      · exact Offer.noConfusion h1
      · rcases List.mem_append.mp h1 with h2 | h2
        · split at h2
          · exact Offer.noConfusion (List.mem_singleton.mp h2)
          · exact Offer.noConfusion (List.mem_singleton.mp h2)
        · split at h2
          · rename_i hgt
            split at h2
            · rename_i hge
              injection List.mem_singleton.mp h2 with h3 h4
              exact ⟨hgt, h4, Or.inl ⟨hge, h3⟩⟩
            · rename_i hge
              injection List.mem_singleton.mp h2 with h3 h4
              exact ⟨hgt, h4, Or.inr ⟨hge, h3⟩⟩
          · exact absurd h2 (List.not_mem_nil _)

/-- C3 counterexample state: two players, player 0 active, player 1 all-in,
both bets equal to the maximum bet (50). -/
def c3Env : Env :=
  mkEnv [0, 1] ["player_A", "player_B"] [100, 50] [50, 50] [false, false] [false, true]

/-- C3 witness state: same table but player 0 has only bet 40, so a call of
min(maxBet, stack) = 50 is offered next to Fold. -/
def c3wEnv : Env :=
  mkEnv [0, 1] ["player_A", "player_B"] [100, 50] [40, 50] [false, false] [false, true]

/-- C3 counterexample: with every other contender all-in and bet[p] equal to
the maximum bet, the offered set is [Fold], not the empty set the claim
requires — Fold is offered in this situation. -/
theorem c3_only_call_counterexample :
    get_available_actions c3Env = [Offer.fold] ∧ get_available_actions c3Env ≠ [] := by
  constructor
  · decide
  · decide

/-- C3 amended: for a player p who is neither folded nor all-in, when every
other seat is folded or all-in (and no seat is both), the offered set is
exactly [Fold, Call(min(maxBet, stack[p]))] if bet[p] != maxBet and exactly
[Fold] if bet[p] = maxBet.  (The round still ends without consulting the
policy in the [Fold] case, because step_bid breaks on a singleton offer
list, but the offer built by get_available_actions is never empty and always
contains Fold.) -/
theorem c3_endgame_offer (st : Env)
    (hlen : st.folded.length = st.all_in.length)
    (hp : st.current_player < st.folded.length)
    (hfp : st.folded.getD st.current_player false = false)
    (hap : st.all_in.getD st.current_player false = false)
    (hothers : ∀ i < st.folded.length, i ≠ st.current_player →
      (st.folded.getD i false = true ∨ st.all_in.getD i false = true))
    (hnd : ∀ i < st.folded.length,
      ¬(st.folded.getD i false = true ∧ st.all_in.getD i false = true)) :
    get_available_actions st =
      Offer.fold ::
        (if st.bets.getD st.current_player 0 ≠ maxBet st.bets then
          [Offer.call (min (maxBet st.bets) (st.stacks.getD st.current_player 0))]
        else []) :=
  gaa_endgame st hlen hp hfp hap hothers hnd

/-- Witness for the amended C3 at a concrete input (the call case). -/
theorem c3_endgame_offer_witness :
    get_available_actions c3wEnv =
      Offer.fold ::
        (if c3wEnv.bets.getD c3wEnv.current_player 0 ≠ maxBet c3wEnv.bets then
          [Offer.call (min (maxBet c3wEnv.bets) (c3wEnv.stacks.getD c3wEnv.current_player 0))]
        else []) :=
  c3_endgame_offer c3wEnv (by decide) (by decide) (by decide) (by decide)
    (by decide) (by decide)

/-- C5 witness state: two active players, bets 10 and 20, stacks 100,
minimum-raise floor 10. -/
def c5Env : Env :=
  mkEnv [0, 1] ["player_A", "player_B"] [100, 100] [10, 20] [false, false] [false, false]

/-- C5: for a non-all-in, non-folded player p with at least one other
contender able to act, a Raise is offered iff stack[p] > maxBet; its range
is exactly [maxBet + max_raise, stack[p]] when stack[p] >= 2*maxBet and
collapses to the single value stack[p] when stack[p] < 2*maxBet; no other
raise range — in particular none with a lower bound below
maxBet + max_raise outside the collapse case — is ever offered. -/
theorem c5_raise_range (st : Env)
    (hlen : st.folded.length = st.all_in.length)
    (hp : st.current_player < st.folded.length)
    (hfp : st.folded.getD st.current_player false = false)
    (hap : st.all_in.getD st.current_player false = false)
    (hq : ∃ q, q < st.folded.length ∧ q ≠ st.current_player ∧
      st.folded.getD q false = false ∧ st.all_in.getD q false = false)
    (hnd : ∀ i < st.folded.length,
      ¬(st.folded.getD i false = true ∧ st.all_in.getD i false = true)) :
    (∀ lo hi, Offer.raiseRange lo hi ∈ get_available_actions st ↔
      (st.stacks.getD st.current_player 0 > maxBet st.bets ∧
       hi = st.stacks.getD st.current_player 0 ∧
       ((st.stacks.getD st.current_player 0 ≥ maxBet st.bets * 2 ∧
           lo = maxBet st.bets + st.max_raise) ∨
        (st.stacks.getD st.current_player 0 < maxBet st.bets * 2 ∧
           lo = st.stacks.getD st.current_player 0)))) ∧
    ((∃ lo hi, Offer.raiseRange lo hi ∈ get_available_actions st) ↔
      st.stacks.getD st.current_player 0 > maxBet st.bets) := by
  obtain ⟨q, hq1, hq2, hq3, hq4⟩ := hq
  have hle := count_two_clean st.folded st.all_in st.current_player q hlen hp hq1
    (fun h => hq2 h.symm) hfp hap hq3 hq4 hnd
  have hn2 : 2 ≤ st.folded.length := by omega
  have hcnt : st.all_in.count true + st.folded.count true ≠ st.folded.length - 1 := by
    omega
  have hsh := gaa_normal st hap hcnt
  constructor
  · intro lo hi
    constructor
    · intro hmem
      rcases gaa_raise_mem st lo hi hmem with ⟨h1, h2, h3 | h3⟩
      · exact ⟨h1, h2, Or.inl h3⟩
      · exact ⟨h1, h2, Or.inr ⟨by omega, h3.2⟩⟩
    · rintro ⟨h1, h2, h3⟩
      rw [hsh]
      subst h2
      rcases h3 with ⟨hge, rfl⟩ | ⟨hlt, rfl⟩
      · refine List.mem_cons_of_mem _ (List.mem_append_right _ ?_)
        rw [if_pos h1, if_pos hge]
        exact List.mem_singleton.mpr rfl
      · refine List.mem_cons_of_mem _ (List.mem_append_right _ ?_)
        rw [if_pos h1, if_neg (by omega)]
        exact List.mem_singleton.mpr rfl
  · constructor
    · rintro ⟨lo, hi, hmem⟩
      exact (gaa_raise_mem st lo hi hmem).1
    · intro h1
      by_cases hge : st.stacks.getD st.current_player 0 ≥ maxBet st.bets * 2
      · refine ⟨maxBet st.bets + st.max_raise, st.stacks.getD st.current_player 0, ?_⟩
        rw [hsh]
        refine List.mem_cons_of_mem _ (List.mem_append_right _ ?_)
        rw [if_pos h1, if_pos hge]
        exact List.mem_singleton.mpr rfl
      · refine ⟨st.stacks.getD st.current_player 0, st.stacks.getD st.current_player 0, ?_⟩
        rw [hsh]
        refine List.mem_cons_of_mem _ (List.mem_append_right _ ?_)
        rw [if_pos h1, if_neg hge]
        exact List.mem_singleton.mpr rfl

/-- Witness for C5 at a concrete input: with maxBet 20, floor 10 and stack
100 >= 2*maxBet, the raise range (30, 100) is offered. -/
theorem c5_raise_range_witness :
    Offer.raiseRange 30 100 ∈ get_available_actions c5Env := by
  have h := c5_raise_range c5Env (by decide) (by decide) (by decide) (by decide)
    ⟨1, by decide, by decide, by decide, by decide⟩ (by decide)
  exact (h.1 30 100).mpr (by decide)

/-! ### C4: validation of policy-returned actions -/

lemma applyAction_none_iff (st : Env) (lb : Nat) (a : PAct) :
    applyAction st lb a = none ↔
      a.kind ∉ (["fold", "check", "call", "raise"] : List String) := by
  simp only [applyAction]
  split_ifs with hf hc hl hr
  · simp [hf]
  · simp [hc]
  · simp [hl]
  · simp [hr]
  · simp [hf, hc, hl, hr]

/-- C4 counterexample state: the offered set for player 0 is
[Fold, Call 50] — no Raise is offered (stack 50 is below maxBet 100). -/
def c4Env : Env :=
  mkEnv [0, 1] ["player_A", "player_B"] [50, 100] [10, 100] [false, false] [false, false]

/-- C4 counterexample: a policy returns Raise 500, which is not a member of
the offered set [Fold, Call 50] — yet the step silently applies it (the
floor ratchets to 400, the bet is set to 500, the turn advances) instead of
failing with the invalid-action error. -/
theorem c4_no_membership_check_counterexample :
    ¬ MemOffer ⟨"raise", 500⟩ (get_available_actions c4Env) ∧
    (bidIter (fun _ _ _ => ⟨"raise", 500⟩) false c4Env 1).1 =
      BidStep.cont { c4Env with max_raise := 400, bets := [500, 100], current_player := 1 } 1 := by
  constructor
  · decide
  · decide

/-- C4 amended: the betting step fails with the invalid-action error exactly
when the kind of the returned action is none of fold / check / call / raise;
an action with a recognized kind is applied unconditionally — the engine
never validates membership (by kind or amount) in the offered set. -/
theorem c4_error_iff_unknown_kind (st : Env) (a : PAct) (v : Bool) (lb : Nat)
    (hnf : st.folded.getD st.current_player false = false)
    (h1 : (get_available_actions st).length ≠ 1)
    (h0 : get_available_actions st ≠ []) :
    ((bidIter (fun _ _ _ => a) v st lb).1 = BidStep.invalid st ↔
      a.kind ∉ (["fold", "check", "call", "raise"] : List String)) := by
  have hie : (get_available_actions st).isEmpty = false := by
    cases hval : get_available_actions st
    · exact absurd hval h0
    · rfl
  rw [← applyAction_none_iff st lb a]
  simp only [bidIter, hnf]
  rw [if_neg (by simp)]
  rw [if_neg h1]
  simp only [hie]
  rw [if_neg (by simp)]
  cases hA : applyAction st lb a with
  | none => simp [hA]
  | some pr =>
    obtain ⟨st1, lb1⟩ := pr
    simp only [hA]
    constructor
    · intro hEq
      exfalso
      split at hEq
      · exact BidStep.noConfusion hEq
      · split at hEq
        · exact BidStep.noConfusion hEq
        · exact BidStep.noConfusion hEq
    · intro hEq
      exact absurd hEq (by simp)

/-- Witness for the amended C4: an unrecognized kind string produces the
invalid-action outcome. -/
theorem c4_error_iff_unknown_kind_witness :
    (bidIter (fun _ _ _ => ⟨"allin", 0⟩) false c4Env 1).1 = BidStep.invalid c4Env := by
  have h := c4_error_iff_unknown_kind c4Env ⟨"allin", 0⟩ false 1 (by decide) (by decide)
    (by decide)
  exact h.mpr (by decide)

/-! ### C1: side-pot layering for the 30 / 80 / 200 scenario -/

lemma pickTies_subset (pn : List String) (r : Int) :
    ∀ l : List (String × Int), ∀ x ∈ pickTies pn r l, x ∈ pn := by
  intro l
  induction l with
  | nil => intro x hx; simp [pickTies] at hx
  | cons hd tl ih =>
    intro x hx
    obtain ⟨nm, r1⟩ := hd
    simp only [pickTies] at hx
    split at hx
    · split at hx
      · rcases List.mem_cons.mp hx with h | h
        · subst h; assumption
        · exact ih x h
      · simp at hx
    · exact ih x hx

lemma pickWinners_subset (pn : List String) :
    ∀ l : List (String × Int), ∀ x ∈ pickWinners pn l, x ∈ pn := by
  intro l
  induction l with
  | nil => intro x hx; simp [pickWinners] at hx
  | cons hd tl ih =>
    intro x hx
    obtain ⟨nm, r1⟩ := hd
    simp only [pickWinners] at hx
    split at hx
    · rcases List.mem_cons.mp hx with h | h
      · subst h; assumption
      · exact pickTies_subset pn r1 tl x h
    · exact ih x hx

/-- C1 counterexample: on the claimed scenario (A contributed 30 all-in, B
80 all-in, C 200) the pot construction yields THREE nonzero pots — 90
eligible to A,B,C; 100 eligible to B,C; and 120 eligible to C alone (C's
uncalled excess) — plus the empty trailing pot, not the two pots the claim
states. -/
theorem c1_two_pots_counterexample :
    buildPots c1Env =
      some ([90, 100, 120, 0],
        [["player_A", "player_B", "player_C"], ["player_B", "player_C"], ["player_C"], []]) ∧
    (([90, 100, 120, 0] : List Int).filter (fun p => p != 0)).length = 3 := by
  constructor
  · decide
  · decide

/-- C1 amended: the scenario produces a main pot of 90 eligible to A,B,C, a
side pot of 100 eligible to B,C only, and additionally a pot of 120 eligible
to C alone; whatever the rank oracle says — even if A holds the strongest
hand — A is never among the winners the distribution computes for the
100-chip side pot, because that scan only keeps names in the pot's
eligibility list. -/
theorem c1_side_pots_amended :
    buildPots c1Env =
      some ([90, 100, 120, 0],
        [["player_A", "player_B", "player_C"], ["player_B", "player_C"], ["player_C"], []]) ∧
    (∀ rank : Rank,
      "player_A" ∉
        pickWinners ["player_B", "player_C"]
          (sortDesc (scoresOf rank (String.join c1Env.community_cards) c1Env.names
            c1Env.folded c1Env.player_cards))) := by
  constructor
  · decide
  · intro rank h
    have := pickWinners_subset ["player_B", "player_C"] _ _ h
    simp at this

/-! ### C2 machinery: properties of the pot-peeling loop -/

/-- States whose maximum bet is attained by a non-folded player (an
invariant of every state the game loop can bring to resolution: a raise can
only be folded out while a non-all-in contender with at least that bet is
still live). -/
def LiveTop (bets : List Int) (folded : List Bool) : Prop :=
  ∃ bm ∈ liveVals bets folded, ∀ b ∈ bets, b ≤ bm

instance (bets : List Int) (folded : List Bool) : Decidable (LiveTop bets folded) :=
  List.decidableBEx _ _

lemma liveVals_subset : ∀ (bets : List Int) (folded : List Bool),
    ∀ b ∈ liveVals bets folded, b ∈ bets := by
  intro bets
  induction bets with
  | nil => intro folded b hb; cases folded <;> simp [liveVals] at hb
  | cons hd tl ih =>
    intro folded b hb
    cases folded with
    | nil => simp [liveVals] at hb
    | cons f fs =>
      simp only [liveVals] at hb
      split at hb
      · exact List.mem_cons_of_mem _ (ih fs b hb)
      · rcases List.mem_cons.mp hb with h | h
        · simp [h]
        · exact List.mem_cons_of_mem _ (ih fs b h)

lemma minLive_pos : ∀ (bets : List Int) (folded : List Bool),
    (∀ b ∈ bets, 0 ≤ b) → ∀ val, minLive bets folded = some val → 1 ≤ val := by
  intro bets
  induction bets with
  | nil => intro folded _ val h; cases folded <;> simp [minLive] at h
  | cons b bs ih =>
    intro folded hnn val h
    cases folded with
    | nil => simp [minLive] at h
    | cons f fs =>
      simp only [minLive] at h
      split at h
      · rename_i hc
        have hb1 : 1 ≤ b := by
          have := hnn b (by simp)
          have := hc.1
          omega
        cases hm : minLive bs fs with
        | none =>
          rw [hm] at h
          simp at h
          omega
        | some v =>
          rw [hm] at h
          simp at h
          have hv1 := ih fs (fun x hx => hnn x (List.mem_cons_of_mem _ hx)) v hm
          omega
      · exact ih fs (fun x hx => hnn x (List.mem_cons_of_mem _ hx)) val h

lemma minLive_mem : ∀ (bets : List Int) (folded : List Bool) (val : Int),
    minLive bets folded = some val → val ∈ liveVals bets folded := by
  intro bets
  induction bets with
  | nil => intro folded val h; cases folded <;> simp [minLive] at h
  | cons b bs ih =>
    intro folded val h
    cases folded with
    | nil => simp [minLive] at h
    | cons f fs =>
      simp only [minLive] at h
      split at h
      · rename_i hc
        have hf : f = false := hc.2
        cases hm : minLive bs fs with
        | none =>
          rw [hm] at h
          simp at h
          simp [liveVals, hf, h]
        | some v =>
          rw [hm] at h
          simp at h
          rcases min_choice b v with hmin | hmin
          · rw [← h, hmin]
            simp [liveVals, hf]
          · rw [← h, hmin]
            simp only [liveVals, hf]
            simp
            exact Or.inr (ih fs v hm)
      · have := ih fs val h
        simp only [liveVals]
        split
        · exact this
        · exact List.mem_cons_of_mem _ this

lemma minLive_none_live_zero : ∀ (bets : List Int) (folded : List Bool),
    minLive bets folded = none → ∀ b ∈ liveVals bets folded, b = 0 := by
  intro bets
  induction bets with
  | nil => intro folded _ b hb; cases folded <;> simp [liveVals] at hb
  | cons hd tl ih =>
    intro folded h b hb
    cases folded with
    | nil => simp [liveVals] at hb
    | cons f fs =>
      simp only [minLive] at h
      split at h
      · exact absurd h (by simp)
      · rename_i hc
        simp only [liveVals] at hb
        cases hf : f with
        | true =>
          rw [hf] at hb
          simp at hb
          exact ih fs h b hb
        | false =>
          rw [hf] at hb
          simp at hb
          rcases hb with h1 | h1
          · subst h1
            by_contra hne
            exact hc ⟨hne, hf⟩
          · exact ih fs h b h1

lemma peelLayer_fst (val : Int) : ∀ (bets : List Int) (folded : List Bool) (names : List String),
    bets.length = folded.length → bets.length = names.length →
    (peelLayer val bets folded names).1 = bets.map (fun b => b - min val b) := by
  intro bets
  induction bets with
  | nil => intro folded names _ _; cases folded <;> cases names <;> simp [peelLayer]
  | cons b bs ih =>
    intro folded names h1 h2
    cases folded with
    | nil => simp at h1
    | cons f fs =>
      cases names with
      | nil => simp at h2
      | cons nm nms =>
        simp only [peelLayer, List.map_cons]
        split
        · simp [ih fs nms (by simpa using h1) (by simpa using h2)]
        · rename_i hn
          have : min val b = 0 := by omega
          simp [this, ih fs nms (by simpa using h1) (by simpa using h2)]

lemma peelLayer_sum (val : Int) : ∀ (bets : List Int) (folded : List Bool) (names : List String),
    bets.length = folded.length → bets.length = names.length →
    (peelLayer val bets folded names).1.sum + (peelLayer val bets folded names).2.1 =
      bets.sum := by
  intro bets
  induction bets with
  | nil => intro folded names _ _; cases folded <;> cases names <;> simp [peelLayer]
  | cons b bs ih =>
    intro folded names h1 h2
    cases folded with
    | nil => simp at h1
    | cons f fs =>
      cases names with
      | nil => simp at h2
      | cons nm nms =>
        have hrec := ih fs nms (by simpa using h1) (by simpa using h2)
        simp only [peelLayer]
        split
        · simp only [List.sum_cons]
          omega
        · simp only [List.sum_cons]
          omega

lemma peelLayer_amt_nonneg (val : Int) (hv : 1 ≤ val) :
    ∀ (bets : List Int) (folded : List Bool) (names : List String),
    (∀ b ∈ bets, 0 ≤ b) → 0 ≤ (peelLayer val bets folded names).2.1 := by
  intro bets
  induction bets with
  | nil => intro folded names _; cases folded <;> cases names <;> simp [peelLayer]
  | cons b bs ih =>
    intro folded names hnn
    cases folded with
    | nil => simp [peelLayer]
    | cons f fs =>
      cases names with
      | nil => simp [peelLayer]
      | cons nm nms =>
        have hrec := ih fs nms (fun x hx => hnn x (List.mem_cons_of_mem _ hx))
        have hb := hnn b (by simp)
        simp only [peelLayer]
        split
        · simp only []
          omega
        · exact hrec

lemma peelLayer_amt_pos (val : Int) (hv : 1 ≤ val) :
    ∀ (bets : List Int) (folded : List Bool) (names : List String),
    bets.length = folded.length → bets.length = names.length →
    (∀ b ∈ bets, 0 ≤ b) → minLive bets folded = some val →
    1 ≤ (peelLayer val bets folded names).2.1 := by
  intro bets
  induction bets with
  | nil => intro folded names _ _ _ h; cases folded <;> simp [minLive] at h
  | cons b bs ih =>
    intro folded names h1 h2 hnn hml
    cases folded with
    | nil => simp at h1
    | cons f fs =>
      cases names with
      | nil => simp at h2
      | cons nm nms =>
        have htlnn : ∀ x ∈ bs, 0 ≤ x := fun x hx => hnn x (List.mem_cons_of_mem _ hx)
        have hb := hnn b (by simp)
        simp only [minLive] at hml
        by_cases hc : b ≠ 0 ∧ f = false
        · rw [if_pos hc] at hml
          have hamt := peelLayer_amt_nonneg val hv bs fs nms htlnn
          simp only [peelLayer]
          split
          · simp only []
            omega
          · rename_i hn
            omega
        · rw [if_neg hc] at hml
          have hrec := ih fs nms (by simpa using h1) (by simpa using h2) htlnn hml
          simp only [peelLayer]
          split
          · simp only []
            have hmn : 0 ≤ min val b := by omega
            omega
          · exact hrec

lemma peelLayer_names_subset (val : Int) :
    ∀ (bets : List Int) (folded : List Bool) (names : List String),
    ∀ nm ∈ (peelLayer val bets folded names).2.2, nm ∈ liveNames names folded := by
  intro bets
  induction bets with
  | nil => intro folded names nm h; cases folded <;> cases names <;> simp [peelLayer] at h
  | cons b bs ih =>
    intro folded names nm h
    cases folded with
    | nil => simp [peelLayer] at h
    | cons f fs =>
      cases names with
      | nil => simp [peelLayer] at h
      | cons x nms =>
        simp only [peelLayer] at h
        split at h
        · cases hf : f with
          | true =>
            rw [hf] at h
            simp at h
            simp only [liveNames, hf, if_pos rfl]
            exact ih fs nms nm h
          | false =>
            rw [hf] at h
            simp at h
            simp only [liveNames, hf]
            simp only [if_neg (by simp : ¬(false = true))]
            rcases h with h | h
            · simp [h]
            · exact List.mem_cons_of_mem _ (ih fs nms nm h)
        · simp only [liveNames]
          split
          · exact ih fs nms nm h
          · exact List.mem_cons_of_mem _ (ih fs nms nm h)

lemma peelLayer_names_witness (val : Int) (hv : 1 ≤ val) :
    ∀ (bets : List Int) (folded : List Bool) (names : List String),
    bets.length = folded.length → bets.length = names.length →
    (∀ b ∈ bets, 0 ≤ b) → minLive bets folded = some val →
    ∃ nm, nm ∈ (peelLayer val bets folded names).2.2 := by
  intro bets
  induction bets with
  | nil => intro folded names _ _ _ h; cases folded <;> simp [minLive] at h
  | cons b bs ih =>
    intro folded names h1 h2 hnn hml
    cases folded with
    | nil => simp at h1
    | cons f fs =>
      cases names with
      | nil => simp at h2
      | cons x nms =>
        have htlnn : ∀ y ∈ bs, 0 ≤ y := fun y hy => hnn y (List.mem_cons_of_mem _ hy)
        have hb := hnn b (by simp)
        simp only [minLive] at hml
        by_cases hc : b ≠ 0 ∧ f = false
        · have hn : min val b ≠ 0 := by
            have := hc.1
            omega
          refine ⟨x, ?_⟩
          simp only [peelLayer, if_pos hn, hc.2]
          simp
        · rw [if_neg hc] at hml
          obtain ⟨nm, hnm⟩ := ih fs nms (by simpa using h1) (by simpa using h2) htlnn hml
          refine ⟨nm, ?_⟩
          simp only [peelLayer]
          split
          · split
            · exact hnm
            · exact List.mem_cons_of_mem _ hnm
          · exact hnm

lemma liveVals_map (g : Int → Int) : ∀ (bets : List Int) (folded : List Bool),
    liveVals (bets.map g) folded = (liveVals bets folded).map g := by
  intro bets
  induction bets with
  | nil => intro folded; cases folded <;> simp [liveVals]
  | cons b bs ih =>
    intro folded
    cases folded with
    | nil => simp [liveVals]
    | cons f fs =>
      simp only [List.map_cons, liveVals]
      split
      · exact ih fs
      · simp [ih fs]

lemma peel_liveTop (val : Int) (bets : List Int) (folded : List Bool) (names : List String)
    (h1 : bets.length = folded.length) (h2 : bets.length = names.length)
    (hnn : ∀ b ∈ bets, 0 ≤ b) (hml : minLive bets folded = some val)
    (htop : LiveTop bets folded) :
    LiveTop (peelLayer val bets folded names).1 folded := by
  obtain ⟨bm, hbm, hub⟩ := htop
  have hv1 : 1 ≤ val := minLive_pos bets folded hnn val hml
  have hvb : val ≤ bm := hub val (liveVals_subset bets folded val (minLive_mem bets folded val hml))
  rw [peelLayer_fst val bets folded names h1 h2]
  refine ⟨bm - min val bm, ?_, ?_⟩
  · rw [liveVals_map]
    exact List.mem_map_of_mem _ hbm
  · intro b hb
    obtain ⟨b0, hb0, rfl⟩ := List.mem_map.mp hb
    have hb0m := hub b0 hb0
    have hb0n := hnn b0 hb0
    omega

lemma peel_nonneg (val : Int) (bets : List Int) (folded : List Bool) (names : List String)
    (h1 : bets.length = folded.length) (h2 : bets.length = names.length) :
    ∀ b ∈ (peelLayer val bets folded names).1, 0 ≤ b := by
  rw [peelLayer_fst val bets folded names h1 h2]
  intro b hb
  obtain ⟨b0, _, rfl⟩ := List.mem_map.mp hb
  omega

lemma sum_toNat_map_le (val : Int) (hv : 1 ≤ val) : ∀ bets : List Int,
    ((bets.map (fun b => b - min val b)).map Int.toNat).sum ≤ ((bets.map Int.toNat)).sum := by
  intro bets
  induction bets with
  | nil => simp
  | cons b bs ih =>
    simp only [List.map_cons, List.sum_cons]
    have : (b - min val b).toNat ≤ b.toNat := by omega
    omega

lemma sum_toNat_map_lt (val : Int) (hv : 1 ≤ val) : ∀ bets : List Int, val ∈ bets →
    ((bets.map (fun b => b - min val b)).map Int.toNat).sum < ((bets.map Int.toNat)).sum := by
  intro bets
  induction bets with
  | nil => intro h; simp at h
  | cons b bs ih =>
    intro hmem
    simp only [List.map_cons, List.sum_cons]
    rcases List.mem_cons.mp hmem with h | h
    · subst h
      have hle := sum_toNat_map_le val hv bs
      omega
    · have hlt := ih h
      have : (b - min val b).toNat ≤ b.toNat := by omega
      omega

lemma peel_toNat_lt (val : Int) (bets : List Int) (folded : List Bool) (names : List String)
    (h1 : bets.length = folded.length) (h2 : bets.length = names.length)
    (hnn : ∀ b ∈ bets, 0 ≤ b) (hml : minLive bets folded = some val) :
    ((peelLayer val bets folded names).1.map Int.toNat).sum < (bets.map Int.toNat).sum := by
  have hv1 : 1 ≤ val := minLive_pos bets folded hnn val hml
  have hvm : val ∈ bets :=
    liveVals_subset bets folded val (minLive_mem bets folded val hml)
  rw [peelLayer_fst val bets folded names h1 h2]
  exact sum_toNat_map_lt val hv1 bets hvm

lemma getD_all_zero_sum : ∀ l : List Int, (∀ k, l.getD k 0 = 0) → l.sum = 0 := by
  intro l
  induction l with
  | nil => intro _; simp
  | cons hd tl ih =>
    intro h
    have h0 := h 0
    simp only [List.getD_cons_zero] at h0
    simp [h0, ih (fun k => h (k + 1))]

lemma potLoop_spec : ∀ (fuel : Nat) (bets : List Int) (folded : List Bool) (names : List String),
    bets.length = folded.length → bets.length = names.length →
    (∀ b ∈ bets, 0 ≤ b) → LiveTop bets folded →
    (bets.map Int.toNat).sum < fuel →
    ∃ pots pnames, potLoop fuel bets folded names = some (pots, pnames) ∧
      pots.sum = bets.sum ∧
      (∀ k, pots.getD k 0 = 0 → ∀ k', k ≤ k' → pots.getD k' 0 = 0) ∧
      (∀ k, pots.getD k 0 ≠ 0 →
        ∃ nm, nm ∈ pnames.getD k [] ∧ nm ∈ liveNames names folded) := by
  intro fuel
  induction fuel with
  | zero => intro bets folded names _ _ _ _ hm; exact absurd hm (by omega)
  | succ fuel ih =>
    intro bets folded names h1 h2 hnn htop hm
    cases hml : minLive bets folded with
    | none =>
      refine ⟨[0], [[]], by simp [potLoop, hml], ?_, ?_, ?_⟩
      · obtain ⟨bm, hbm, hub⟩ := htop
        have hbm0 : bm = 0 := minLive_none_live_zero bets folded hml bm hbm
        have hz : ∀ b ∈ bets, b = 0 := fun b hb =>
          le_antisymm (hbm0 ▸ hub b hb) (hnn b hb)
        simp [List.sum_eq_zero hz]
      · intro k hk k' hkk
        cases k' with
        | zero => rfl
        | succ n => rfl
      · intro k hk
        exact absurd (by cases k <;> rfl) hk
    | some val =>
      have hv1 : 1 ≤ val := minLive_pos bets folded hnn val hml
      have hrecL : (peelLayer val bets folded names).1.length = bets.length := by
        rw [peelLayer_fst val bets folded names h1 h2]
        simp
      obtain ⟨pots, pnames, hpl, hsum, hzs, hg⟩ :=
        ih (peelLayer val bets folded names).1 folded names
          (by rw [hrecL]; exact h1) (by rw [hrecL]; exact h2)
          (peel_nonneg val bets folded names h1 h2)
          (peel_liveTop val bets folded names h1 h2 hnn hml htop)
          (by
            have := peel_toNat_lt val bets folded names h1 h2 hnn hml
            omega)
      refine ⟨(peelLayer val bets folded names).2.1 :: pots,
        (peelLayer val bets folded names).2.2 :: pnames, ?_, ?_, ?_, ?_⟩
      · simp [potLoop, hml, hpl]
      · have := peelLayer_sum val bets folded names h1 h2
        simp only [List.sum_cons]
        omega
      · intro k hk k' hkk
        cases k with
        | zero =>
          exfalso
          have hpos := peelLayer_amt_pos val hv1 bets folded names h1 h2 hnn hml
          simp only [List.getD_cons_zero] at hk
          omega
        | succ k =>
          cases k' with
          | zero => omega
          | succ k' =>
            simp only [List.getD_cons_succ] at hk ⊢
            exact hzs k hk k' (by omega)
      · intro k hk
        cases k with
        | zero =>
          obtain ⟨nm, hnm⟩ :=
            peelLayer_names_witness val hv1 bets folded names h1 h2 hnn hml
          exact ⟨nm, by simpa using hnm,
            peelLayer_names_subset val bets folded names nm hnm⟩
        | succ k =>
          simp only [List.getD_cons_succ] at hk ⊢
          exact hg k hk

lemma liveNames_nonempty : ∀ (bets : List Int) (folded : List Bool) (names : List String),
    bets.length = folded.length → bets.length = names.length →
    ∀ b ∈ liveVals bets folded, ∃ nm, nm ∈ liveNames names folded := by
  intro bets
  induction bets with
  | nil => intro folded names _ _ b hb; cases folded <;> simp [liveVals] at hb
  | cons x bs ih =>
    intro folded names h1 h2 b hb
    cases folded with
    | nil => simp at h1
    | cons f fs =>
      cases names with
      | nil => simp at h2
      | cons nm nms =>
        simp only [liveVals] at hb
        cases hf : f with
        | true =>
          rw [hf] at hb
          simp at hb
          obtain ⟨y, hy⟩ := ih fs nms (by simpa using h1) (by simpa using h2) b hb
          exact ⟨y, by simpa [liveNames, hf] using hy⟩
        | false =>
          exact ⟨nm, by simp [liveNames, hf]⟩

lemma buildPots_spec (st : Env)
    (hbf : st.bets.length = st.folded.length)
    (hbn : st.bets.length = st.names.length)
    (hnn : ∀ b ∈ st.bets, 0 ≤ b) (htop : LiveTop st.bets st.folded) :
    ∃ pots pnames, buildPots st = some (pots, pnames) ∧
      pots.sum = st.bets.sum ∧
      (∀ k, pots.getD k 0 = 0 → ∀ k', k ≤ k' → pots.getD k' 0 = 0) ∧
      (∀ k, pots.getD k 0 ≠ 0 →
        ∃ nm, nm ∈ pnames.getD k [] ∧ nm ∈ liveNames st.names st.folded) := by
  by_cases hall : st.all_in.count true = 0
  · refine ⟨[st.bets.sum], [liveNames st.names st.folded],
      by simp [buildPots, hall], by simp, ?_, ?_⟩
    · intro k hk k' hkk
      cases k with
      | zero =>
        simp only [List.getD_cons_zero] at hk
        cases k' with
        | zero => simpa using hk
        | succ n => rfl
      | succ k =>
        cases k' with
        | zero => omega
        | succ n => rfl
    · intro k hk
      cases k with
      | zero =>
        simp only [List.getD_cons_zero] at hk ⊢
        obtain ⟨bm, hbm, _⟩ := htop
        obtain ⟨nm, hnm⟩ := liveNames_nonempty st.bets st.folded st.names hbf hbn bm hbm
        exact ⟨nm, hnm, hnm⟩
      | succ k => exact absurd rfl hk
  · obtain ⟨pots, pnames, h, hsum, hzs, hg⟩ :=
      potLoop_spec (potFuel st.bets) st.bets st.folded st.names hbf hbn hnn htop
        (by unfold potFuel; omega)
    exact ⟨pots, pnames, by simp [buildPots, hall, h], hsum, hzs, hg⟩

/-! ### C2 machinery: scores, winner picking, distribution -/

lemma liveNames_sublist : ∀ (names : List String) (folded : List Bool),
    List.Sublist (liveNames names folded) names := by
  intro names
  induction names with
  | nil => intro folded; cases folded <;> simp [liveNames]
  | cons nm nms ih =>
    intro folded
    cases folded with
    | nil => simp [liveNames]
    | cons f fs =>
      simp only [liveNames]
      split
      · exact (ih fs).cons nm
      · exact (ih fs).cons₂ nm

lemma scoresOf_fst (rank : Rank) (board : String) :
    ∀ (names : List String) (folded : List Bool) (cards : List (List String)),
    names.length = folded.length → names.length = cards.length →
    (scoresOf rank board names folded cards).map Prod.fst = liveNames names folded := by
  intro names
  induction names with
  | nil => intro folded cards _ _; cases folded <;> cases cards <;> simp [scoresOf, liveNames]
  | cons nm nms ih =>
    intro folded cards h1 h2
    cases folded with
    | nil => simp at h1
    | cons f fs =>
      cases cards with
      | nil => simp at h2
      | cons cs css =>
        simp only [scoresOf, liveNames]
        split
        · exact ih fs css (by simpa using h1) (by simpa using h2)
        · simp [ih fs css (by simpa using h1) (by simpa using h2)]

lemma insertDesc_perm (x : String × Int) : ∀ l, List.Perm (insertDesc x l) (x :: l) := by
  intro l
  induction l with
  | nil => simp [insertDesc]
  | cons y tl ih =>
    simp only [insertDesc]
    split
    · exact List.Perm.refl _
    · exact (List.Perm.cons y ih).trans (List.Perm.swap x y tl)

lemma sortDesc_perm : ∀ l, List.Perm (sortDesc l) l := by
  intro l
  induction l with
  | nil => simp [sortDesc]
  | cons x tl ih =>
    exact (insertDesc_perm x (sortDesc tl)).trans (List.Perm.cons x ih)

lemma pickTies_sublist (pn : List String) (r : Int) :
    ∀ l : List (String × Int), List.Sublist (pickTies pn r l) (l.map Prod.fst) := by
  intro l
  induction l with
  | nil => simp [pickTies]
  | cons hd tl ih =>
    obtain ⟨nm, r1⟩ := hd
    simp only [pickTies, List.map_cons]
    split
    · split
      · exact ih.cons₂ nm
      · exact List.nil_sublist _
    · exact ih.cons nm

lemma pickWinners_sublist (pn : List String) :
    ∀ l : List (String × Int), List.Sublist (pickWinners pn l) (l.map Prod.fst) := by
  intro l
  induction l with
  | nil => simp [pickWinners]
  | cons hd tl ih =>
    obtain ⟨nm, r1⟩ := hd
    simp only [pickWinners, List.map_cons]
    split
    · exact (pickTies_sublist pn r1 tl).cons₂ nm
    · exact ih.cons nm

lemma pickWinners_ne_nil (pn : List String) :
    ∀ (l : List (String × Int)) (nm : String) (r : Int),
    (nm, r) ∈ l → nm ∈ pn → pickWinners pn l ≠ [] := by
  intro l
  induction l with
  | nil => intro nm r h; simp at h
  | cons hd tl ih =>
    intro nm r hmem hpn
    obtain ⟨nm1, r1⟩ := hd
    simp only [pickWinners]
    split
    · simp
    · rename_i hni
      rcases List.mem_cons.mp hmem with h | h
      · exfalso
        apply hni
        have : nm1 = nm := congrArg Prod.fst h |>.symm
        rwa [this]
      · exact ih nm r h hpn

lemma payWinners_length (w : List String) (t : Int) : ∀ (ss : List Int) (ns : List String),
    (payWinners w t ss ns).length = ss.length := by
  intro ss
  induction ss with
  | nil => intro ns; cases ns <;> rfl
  | cons s ss ih =>
    intro ns
    cases ns with
    | nil => rfl
    | cons nm nms => simp [payWinners, ih nms]

lemma payWinners_sum (w : List String) (t : Int) : ∀ (ss : List Int) (ns : List String),
    ss.length = ns.length →
    (payWinners w t ss ns).sum =
      ss.sum + t * ((ns.countP (fun nm => decide (nm ∈ w))) : Int) := by
  intro ss
  induction ss with
  | nil =>
    intro ns h
    cases ns with
    | nil => simp [payWinners]
    | cons _ _ => simp at h
  | cons s ss ih =>
    intro ns h
    cases ns with
    | nil => simp at h
    | cons nm nms =>
      have h' : ss.length = nms.length := by simpa using h
      simp only [payWinners, List.sum_cons, ih nms h', List.countP_cons]
      by_cases hw : nm ∈ w
      · rw [if_pos hw, if_pos (by simpa using hw)]
        push_cast
        ring
      · rw [if_neg hw, if_neg (by simpa using hw)]
        push_cast
        ring

lemma countP_mem_eq_length (ns w : List String) (hw : w.Nodup) (hn : ns.Nodup)
    (hsub : ∀ x ∈ w, x ∈ ns) :
    ns.countP (fun nm => decide (nm ∈ w)) = w.length := by
  rw [List.countP_eq_length_filter]
  have hperm : List.Perm (ns.filter (fun nm => decide (nm ∈ w))) w := by
    rw [List.perm_ext_iff_of_nodup (List.Nodup.filter _ hn) hw]
    intro a
    simp only [List.mem_filter, decide_eq_true_eq]
    constructor
    · rintro ⟨_, h2⟩
      exact h2
    · intro ha
      exact ⟨hsub a ha, ha⟩
  exact hperm.length_eq

lemma distribute_all_zero (v : Bool) (scores : List (String × Int)) (names : List String) :
    ∀ (pots : List Int) (pns : List (List String)) (stks : List Int) (rest : Int) (i : Nat),
    (∀ k, pots.getD k 0 = 0) →
    distribute v scores names pots pns stks rest i = some (stks, rest, []) := by
  intro pots
  induction pots with
  | nil => intro pns stks rest i _; rfl
  | cons p ps ih =>
    intro pns stks rest i hz
    have hp : p = 0 := by simpa using hz 0
    subst hp
    simp only [distribute, if_pos rfl]
    exact ih pns stks rest i (fun k => by simpa using hz (k + 1))

lemma distribute_spec (v : Bool) (scores : List (String × Int)) (names : List String)
    (hnodup : (scores.map Prod.fst).Nodup) (hnames : names.Nodup)
    (hsub : ∀ nm ∈ scores.map Prod.fst, nm ∈ names) :
    ∀ (pots : List Int) (pns : List (List String)) (stks : List Int) (rest : Int) (i : Nat),
    stks.length = names.length →
    (∀ k, pots.getD k 0 = 0 → ∀ k', k ≤ k' → pots.getD k' 0 = 0) →
    (∀ k, pots.getD k 0 ≠ 0 → ∃ nm, nm ∈ pns.getD (i + k) [] ∧ nm ∈ scores.map Prod.fst) →
    ∃ stks1 rest1 log,
      distribute v scores names pots pns stks rest i = some (stks1, rest1, log) ∧
      stks1.sum + rest1 = stks.sum + rest + pots.sum ∧
      stks1.length = stks.length := by
  intro pots
  induction pots with
  | nil =>
    intro pns stks rest i hlen _ _
    exact ⟨stks, rest, [], rfl, by simp, rfl⟩
  | cons p ps ih =>
    intro pns stks rest i hlen hz hg
    by_cases hp : p = 0
    · subst hp
      have hall : ∀ k, (((0 : Int)) :: ps).getD k 0 = 0 := fun k =>
        hz 0 (by simp) k (by omega)
      rw [distribute_all_zero v scores names _ pns stks rest i hall]
      refine ⟨stks, rest, [], rfl, ?_, rfl⟩
      have hs0 : ((0 : Int) :: ps).sum = 0 := getD_all_zero_sum _ hall
      omega
    · obtain ⟨nm0, hnm0p, hnm0s⟩ := hg 0 (by simpa using hp)
      obtain ⟨r0, hr0⟩ : ∃ r0, (nm0, r0) ∈ scores := by
        obtain ⟨⟨nm', r'⟩, hmem, heq⟩ := List.mem_map.mp hnm0s
        exact ⟨r', by rwa [show nm' = nm0 from heq] at hmem⟩
      have hwne : pickWinners (pns.getD i []) scores ≠ [] := by
        apply pickWinners_ne_nil (pns.getD i []) scores nm0 r0 hr0
        simpa using hnm0p
      have hwnodup : (pickWinners (pns.getD i []) scores).Nodup :=
        (pickWinners_sublist _ scores).nodup hnodup
      have hwsub : ∀ x ∈ pickWinners (pns.getD i []) scores, x ∈ names := fun x hx =>
        hsub x ((pickWinners_sublist _ scores).subset hx)
      have hcnt := countP_mem_eq_length names (pickWinners (pns.getD i []) scores)
        hwnodup hnames hwsub
      have hpaylen := payWinners_length (pickWinners (pns.getD i []) scores)
        (p / ((pickWinners (pns.getD i []) scores).length : Int)) stks names
      have hpaysum := payWinners_sum (pickWinners (pns.getD i []) scores)
        (p / ((pickWinners (pns.getD i []) scores).length : Int)) stks names (by rw [hlen])
      obtain ⟨stks1, rest1, log, hrec, hsum1, hlen1⟩ := ih pns
        (payWinners (pickWinners (pns.getD i []) scores)
          (p / ((pickWinners (pns.getD i []) scores).length : Int)) stks names)
        (rest + p % ((pickWinners (pns.getD i []) scores).length : Int)) (i + 1)
        (by rw [hpaylen, hlen])
        (fun k hk k' hkk => by
          have := hz (k + 1) (by simpa using hk) (k' + 1) (by omega)
          simpa using this)
        (fun k hk => by
          obtain ⟨nm, hnm1, hnm2⟩ := hg (k + 1) (by simpa using hk)
          refine ⟨nm, ?_, hnm2⟩
          have heq : i + 1 + k = i + (k + 1) := by omega
          rw [heq]
          exact hnm1)
      refine ⟨stks1, rest1, (if v then ["Winner pot"] else []) ++ log, ?_, ?_, ?_⟩
      · simp only [distribute]
        rw [if_neg hp, if_neg (fun h => hwne (List.length_eq_zero.mp h))]
        rw [hrec]
        rfl
      · have hdm := Int.ediv_add_emod p ((pickWinners (pns.getD i []) scores).length : Int)
        rw [hpaysum, hcnt] at hsum1
        simp only [List.sum_cons]
        have h2 : (p / ((pickWinners (pns.getD i []) scores).length : Int)) *
            ((pickWinners (pns.getD i []) scores).length : Int) =
            p - p % ((pickWinners (pns.getD i []) scores).length : Int) := by
          linarith [hdm, mul_comm ((pickWinners (pns.getD i []) scores).length : Int)
            (p / ((pickWinners (pns.getD i []) scores).length : Int))]
        linarith [hsum1, h2]
      · rw [hlen1, hpaylen]

/-! ### C2 machinery: settlement -/

lemma kill_stacks (st : Env) (p : Nat) : (kill st p).stacks = st.stacks.eraseIdx p := rfl

lemma kill_bets (st : Env) (p : Nat) : (kill st p).bets = st.bets.eraseIdx p := rfl

lemma kill_num_players (st : Env) (p : Nat) : (kill st p).num_players = st.num_players - 1 := rfl

lemma settleLoop_sum : ∀ (fuel : Nat) (v : Bool) (j : Nat) (st : Env),
    st.stacks.length = st.num_players →
    st.bets.length = st.num_players →
    st.num_players - j < fuel →
    (settleLoop v fuel j st).1.stacks.sum = st.stacks.sum - (st.bets.drop j).sum := by
  intro fuel
  induction fuel with
  | zero => intro v j st _ _ h; omega
  | succ fuel ih =>
    intro v j st hsl hbl hf
    simp only [settleLoop]
    split
    · rename_i hj
      have hjs : j < st.stacks.length := by omega
      have hjb : j < st.bets.length := by omega
      have hsetsum : (st.stacks.set j (st.stacks.getD j 0 - st.bets.getD j 0)).sum =
          st.stacks.sum - st.bets.getD j 0 := by
        rw [sum_set_int st.stacks j _ hjs]
        omega
      have hsetlen : (st.stacks.set j (st.stacks.getD j 0 - st.bets.getD j 0)).length =
          st.stacks.length := List.length_set _ _ _
      have hdropj : (st.bets.drop j).sum =
          st.bets.getD j 0 + (st.bets.drop (j + 1)).sum := sum_drop_succ st.bets j hjb
      have hnp : ({ st with
          «stacks» := st.stacks.set j (st.stacks.getD j 0 - st.bets.getD j 0) } : Env).num_players =
          st.num_players := rfl
      split
      · rename_i hz
        simp only []
        have hz' : (st.stacks.set j (st.stacks.getD j 0 - st.bets.getD j 0)).getD j 0 = 0 := hz
        have hrec := ih v j
          (kill { st with
            «stacks» := st.stacks.set j (st.stacks.getD j 0 - st.bets.getD j 0) } j)
          (by
            rw [kill_stacks, kill_num_players]
            simp only [List.length_eraseIdx]
            rw [if_pos (by simpa [hsetlen] using hjs)]
            simp [hsetlen, hsl])
          (by
            rw [kill_bets, kill_num_players]
            simp only [List.length_eraseIdx]
            rw [if_pos (by simpa using hjb)]
            simp [hbl])
          (by rw [kill_num_players, hnp]; omega)
        rw [hrec]
        rw [kill_stacks, kill_bets]
        simp only []
        rw [sum_eraseIdx_int _ j (by simpa [hsetlen] using hjs), hz', hsetsum,
          drop_eraseIdx_eq st.bets j, hdropj]
        ring
      · rename_i hz
        have hrec := ih v (j + 1)
          { st with «stacks» := st.stacks.set j (st.stacks.getD j 0 - st.bets.getD j 0) }
          (by simpa [hsetlen] using hsl) (by simpa using hbl) (by rw [hnp]; omega)
        rw [hrec]
        simp only []
        rw [hsetsum, hdropj]
        ring
    · rename_i hj
      have hd : st.bets.drop j = [] := List.drop_eq_nil_of_le (by omega)
      simp [hd]

/-! ### C2: chip conservation through resolution -/

def rankZero : Rank := fun _ => 0

/-- C2 counterexample state: player A folded after betting 100, player B
all-in for 30; every bet is within the player's stack, yet A's 70 chips
above B's layer enter no pot (the peeling loop only keys on non-folded
bets), while settlement still debits them. -/
def c2Env : Env :=
  mkEnv [0, 1] ["player_A", "player_B"] [200, 30] [100, 30] [true, false] [false, true]

/-- C2 counterexample: a state satisfying the claim's precondition (every
current bet at most the stack) on which the resolution chip-conservation
check fails, i.e. the abort branch (modelled as none) is taken: the claim's
panic-unreachability is false for resolution as a function of the stated
precondition alone. -/
theorem c2_conservation_counterexample :
    (∀ k < c2Env.num_players, c2Env.bets.getD k 0 ≤ c2Env.stacks.getD k 0) ∧
    (∀ b ∈ c2Env.bets, 0 ≤ b) ∧
    resolution rankZero false c2Env = none := by
  refine ⟨by decide, by decide, ?_⟩
  decide

/-- C2 amended: in any state whose parallel arrays are sized, whose player
names are distinct, whose bets are between 0 and each player's stack, and
whose maximum bet is attained by some non-folded player (an invariant of
hands the game loop brings to resolution), resolution returns normally: the
chip-conservation panic branch is unreachable, and the final stacks plus the
accumulated split remainder equal the stacks before settlement. -/
theorem c2_resolution_conserves (rank : Rank) (v : Bool) (st : Env)
    (hsl : st.stacks.length = st.num_players)
    (hbl : st.bets.length = st.num_players)
    (hfl : st.folded.length = st.num_players)
    (hnl : st.names.length = st.num_players)
    (hcl : st.player_cards.length = st.num_players)
    (hnodup : st.names.Nodup)
    (hnn : ∀ b ∈ st.bets, 0 ≤ b)
    (_hbs : ∀ k < st.num_players, st.bets.getD k 0 ≤ st.stacks.getD k 0)
    (htop : LiveTop st.bets st.folded) :
    ∃ st1 rest log, resolutionCore rank v st = some (st1, rest, log) ∧
      st1.stacks.sum + rest = st.stacks.sum ∧
      resolution rank v st = some (st1, log) := by
  obtain ⟨pots, pnames, hbuild, hpsum, hzs, hg⟩ :=
    buildPots_spec st (by omega) (by omega) hnn htop
  have hperm := sortDesc_perm
    (scoresOf rank (String.join st.community_cards) st.names st.folded st.player_cards)
  have hpermmap := hperm.map Prod.fst
  have hfst : (scoresOf rank (String.join st.community_cards) st.names st.folded
      st.player_cards).map Prod.fst = liveNames st.names st.folded :=
    scoresOf_fst rank _ st.names st.folded st.player_cards (by omega) (by omega)
  have hlivesub := liveNames_sublist st.names st.folded
  have hnodup1 : ((sortDesc (scoresOf rank (String.join st.community_cards) st.names
      st.folded st.player_cards)).map Prod.fst).Nodup := by
    rw [List.Perm.nodup_iff hpermmap, hfst]
    exact hlivesub.nodup hnodup
  have hsub1 : ∀ nm ∈ (sortDesc (scoresOf rank (String.join st.community_cards) st.names
      st.folded st.player_cards)).map Prod.fst, nm ∈ st.names := by
    intro nm h
    apply hlivesub.subset
    rw [← hfst]
    exact hpermmap.mem_iff.mp h
  have hg1 : ∀ k, pots.getD k 0 ≠ 0 → ∃ nm, nm ∈ pnames.getD (0 + k) [] ∧
      nm ∈ (sortDesc (scoresOf rank (String.join st.community_cards) st.names st.folded
        st.player_cards)).map Prod.fst := by
    intro k hk
    obtain ⟨nm, h1, h2⟩ := hg k hk
    refine ⟨nm, by simpa using h1, ?_⟩
    apply hpermmap.mem_iff.mpr
    rw [hfst]
    exact h2
  obtain ⟨stks1, rest1, dlog, hdist, hdsum, hdlen⟩ :=
    distribute_spec v
      (sortDesc (scoresOf rank (String.join st.community_cards) st.names st.folded
        st.player_cards))
      st.names hnodup1 hnodup hsub1 pots pnames st.stacks 0 0 (by omega) hzs hg1
  have hsettle := settleLoop_sum (st.num_players + 1) v 0
    { st with «stacks» := stks1 }
    (by show stks1.length = st.num_players; omega)
    (by show st.bets.length = st.num_players; exact hbl)
    (by show st.num_players - 0 < st.num_players + 1; omega)
  rw [List.drop_zero] at hsettle
  have hsum2 : (settleLoop v (st.num_players + 1) 0
      { st with «stacks» := stks1 }).1.stacks.sum + rest1 = st.stacks.sum := by
    rw [hsettle]
    have hb2 : ({ st with «stacks» := stks1 } : Env).bets.sum = st.bets.sum := rfl
    have hs2 : ({ st with «stacks» := stks1 } : Env).stacks.sum = stks1.sum := rfl
    rw [hb2, hs2]
    omega
  have hcore : resolutionCore rank v st =
      some ((settleLoop v (st.num_players + 1) 0 { st with «stacks» := stks1 }).1, rest1,
        (if v then ["pots"] else []) ++ dlog ++
        (settleLoop v (st.num_players + 1) 0 { st with «stacks» := stks1 }).2 ++
        (if v then ["State of stacks"] else [])) := by
    simp only [resolutionCore]
    rw [hbuild]
    simp only []
    rw [hdist]
  refine ⟨_, rest1, _, hcore, hsum2, ?_⟩
  simp only [resolution, hcore]
  rw [if_pos hsum2]

/-- Witness for the amended C2: the 3-player 30/80/200 scenario resolves
normally with full conservation. -/
theorem c2_resolution_conserves_witness :
    ∃ st1 rest log, resolutionCore rankZero false c1Env = some (st1, rest, log) ∧
      st1.stacks.sum + rest = c1Env.stacks.sum ∧
      resolution rankZero false c1Env = some (st1, log) :=
  c2_resolution_conserves rankZero false c1Env (by decide) (by decide) (by decide)
    (by decide) (by decide) (by decide) (by decide) (by decide) (by decide)

/-! ### C8 machinery: termination of the betting loop -/

/-- Number of seats still to visit before reaching lastBet, walking forward
from p (the loop breaks at lastBet). -/
def bidDist (n p lb : Nat) : Nat := if p ≤ lb then lb - p else n + lb - p

/-- Lexicographic termination measure for the step_bid loop: raises strictly
shrink the headroom between the largest stack and the current maximum bet;
every other step walks the turn toward lastBet. -/
def bidMeasure (st : Env) (lb : Nat) : Nat :=
  (maxBet st.stacks - maxBet st.bets).toNat * (st.num_players + 1) +
    bidDist st.num_players st.current_player lb

/-- The loop invariant of step_bid used for termination. -/
def BidInv (st : Env) (lb : Nat) : Prop :=
  2 ≤ st.num_players ∧
  st.bets.length = st.num_players ∧
  st.stacks.length = st.num_players ∧
  st.folded.length = st.num_players ∧
  st.all_in.length = st.num_players ∧
  st.current_player < st.num_players ∧
  lb < st.num_players ∧
  1 ≤ st.max_raise

instance (st : Env) (lb : Nat) : Decidable (BidInv st lb) := by
  unfold BidInv
  infer_instance

/-- A legal policy: whenever the offered list is one the engine actually
presents (it always starts with Fold), the returned action is a member. -/
def LegalPolicy (pol : Policy) : Prop :=
  ∀ ag obs acts, Offer.fold ∈ acts → MemOffer (pol ag obs acts) acts

lemma dist_dec (n p lb : Nat) (hp : p < n) (hlb : lb < n) (hne : lb ≠ p) :
    bidDist n ((p + 1) % n) lb < bidDist n p lb := by
  unfold bidDist
  rcases Nat.lt_or_ge (p + 1) n with h | h
  · rw [Nat.mod_eq_of_lt h]
    split_ifs <;> omega
  · have hpn : p + 1 = n := by omega
    rw [hpn, Nat.mod_self]
    split_ifs <;> omega

lemma dist_le (n p lb : Nat) (hp : p < n) (hlb : lb < n) : bidDist n p lb ≤ n := by
  unfold bidDist
  split_ifs <;> omega

lemma measure_lex (a b d d' n : Nat) (hab : a < b) (hd' : d' < n + 1) :
    a * (n + 1) + d' < b * (n + 1) + d := by
  calc a * (n + 1) + d' < a * (n + 1) + (n + 1) := by omega
    _ = (a + 1) * (n + 1) := by ring
    _ ≤ b * (n + 1) := Nat.mul_le_mul_right _ hab
    _ ≤ b * (n + 1) + d := by omega

lemma getD_mem_of_lt {α : Type _} : ∀ (l : List α) (n : Nat) (d : α), n < l.length →
    l.getD n d ∈ l := by
  intro l
  induction l with
  | nil => intro n d h; simp at h
  | cons hd tl ih =>
    intro n d h
    cases n with
    | zero => simp [List.getD]
    | succ n => exact List.mem_cons_of_mem _ (ih n d (by simpa using h))

lemma maxBet_call_preserved (bets : List Int) (p : Nat) (c : Int) (hp : p < bets.length)
    (hne : bets.getD p 0 ≠ maxBet bets) (hc : c ≤ maxBet bets) :
    maxBet (bets.set p c) = maxBet bets := by
  have hnil : bets ≠ [] := by
    intro h
    rw [h] at hp
    simp at hp
  obtain ⟨m, hm, hmem, hub⟩ := vecMax_spec bets hnil
  have hmb : maxBet bets = m := by simp [maxBet, hm]
  rw [hmb]
  apply maxBet_eq_of
  · exact mem_set_of_getD_ne bets p c m 0 hmem (by rw [← hmb] at hmem ⊢; exact fun h => hne h)
  · intro x hx
    rcases mem_set_cases bets p c x hx with h | h
    · exact hub x h
    · rw [h, ← hmb]
      exact hc

lemma maxBet_raise_top (bets : List Int) (p : Nat) (amt : Int) (hp : p < bets.length)
    (hub : ∀ x ∈ bets, x ≤ amt) : maxBet (bets.set p amt) = amt := by
  apply maxBet_eq_of
  · exact List.mem_set bets p hp amt
  · intro x hx
    rcases mem_set_cases bets p amt x hx with h | h
    · exact hub x h
    · exact le_of_eq h

lemma apply_bet_all_in_length (st : Env) (p : Nat) (a : Int) :
    (apply_bet st p a).all_in.length = st.all_in.length := by
  simp only [apply_bet]
  split
  · simp [List.length_set]
  · rfl

lemma applyRaise_bets (st : Env) (amt : Int) :
    (applyRaise st amt).bets = st.bets.set st.current_player amt := by
  simp only [applyRaise]
  split <;> rw [apply_bet_bets] <;> rfl

lemma applyRaise_stacks (st : Env) (amt : Int) :
    (applyRaise st amt).stacks = st.stacks := by
  simp only [applyRaise]
  split <;> rw [apply_bet_stacks] <;> rfl

lemma applyRaise_folded (st : Env) (amt : Int) :
    (applyRaise st amt).folded = st.folded := by
  simp only [applyRaise]
  split <;> rw [apply_bet_folded] <;> rfl

lemma applyRaise_num_players (st : Env) (amt : Int) :
    (applyRaise st amt).num_players = st.num_players := by
  simp only [applyRaise]
  split <;> rw [apply_bet_num_players] <;> rfl

lemma applyRaise_current_player (st : Env) (amt : Int) :
    (applyRaise st amt).current_player = st.current_player := by
  simp only [applyRaise]
  split <;> simp only [apply_bet] <;> split <;> rfl

lemma applyRaise_all_in_length (st : Env) (amt : Int) :
    (applyRaise st amt).all_in.length = st.all_in.length := by
  simp only [applyRaise]
  split <;> rw [apply_bet_all_in_length] <;> rfl

lemma applyRaise_max_raise_eq (st : Env) (amt : Int) :
    (applyRaise st amt).max_raise =
      if amt - maxBet st.bets > st.max_raise then amt - maxBet st.bets else st.max_raise := by
  simp only [applyRaise]
  rw [apply_bet_max_raise]
  split <;> rfl

lemma bidIter_folded_brk (pol : Policy) (v : Bool) (st : Env) (lb : Nat)
    (hf : st.folded.getD st.current_player false = true)
    (hlb : lb = st.current_player) : (bidIter pol v st lb).1 = BidStep.brk st := by
  simp only [bidIter, hf]
  rw [if_pos trivial, if_pos hlb]

lemma bidIter_folded_cont (pol : Policy) (v : Bool) (st : Env) (lb : Nat)
    (hf : st.folded.getD st.current_player false = true)
    (hlb : lb ≠ st.current_player) :
    (bidIter pol v st lb).1 = BidStep.cont
      { st with current_player := (st.current_player + 1) % st.num_players } lb := by
  simp only [bidIter, hf]
  rw [if_pos trivial, if_neg hlb]

lemma bidIter_len1 (pol : Policy) (v : Bool) (st : Env) (lb : Nat)
    (hf : st.folded.getD st.current_player false = false)
    (hl : (get_available_actions st).length = 1) :
    (bidIter pol v st lb).1 = BidStep.brk st := by
  simp only [bidIter, hf]
  rw [if_neg (by simp), if_pos hl]

lemma bidIter_acted (pol : Policy) (v : Bool) (st : Env) (lb : Nat) (st1 : Env) (lb1 : Nat)
    (hf : st.folded.getD st.current_player false = false)
    (hl1 : (get_available_actions st).length ≠ 1)
    (hA : (if (get_available_actions st).isEmpty then some (st, lb)
      else applyAction st lb (pol (st.agents.getD st.current_player 0) (get_state st)
        (get_available_actions st))) = some (st1, lb1)) :
    (bidIter pol v st lb).1 =
      if st1.folded.count true = st1.folded.length - 1 then BidStep.brk st1
      else if lb1 = st.current_player then BidStep.brk st1
      else BidStep.cont { st1 with current_player :=
        (st.current_player + 1) % st1.num_players } lb1 := by
  simp only [bidIter, hf]
  rw [if_neg (by simp), if_neg hl1, hA]
  split
  · rename_i heq
    exact absurd heq (by simp)
  · rename_i st2 lb2 heq
    obtain ⟨h1, h2⟩ : st1 = st2 ∧ lb1 = lb2 := by
      have hp := Option.some.inj heq
      exact ⟨congrArg Prod.fst hp, congrArg Prod.snd hp⟩
    subst h1
    subst h2
    split
    · rfl
    · split
      · rfl
      · rfl

lemma apply_bet_current_player (st : Env) (p : Nat) (a : Int) :
    (apply_bet st p a).current_player = st.current_player := by
  simp only [apply_bet]
  split <;> rfl

lemma BidInv_advance (st1 : Env) (lb1 : Nat)
    (h2 : 2 ≤ st1.num_players) (hbl : st1.bets.length = st1.num_players)
    (hsl : st1.stacks.length = st1.num_players) (hfl : st1.folded.length = st1.num_players)
    (hal : st1.all_in.length = st1.num_players) (hlb : lb1 < st1.num_players)
    (hmr : 1 ≤ st1.max_raise) (q : Nat) :
    BidInv { st1 with current_player := (q + 1) % st1.num_players } lb1 :=
  ⟨h2, hbl, hsl, hfl, hal, Nat.mod_lt _ (by omega), hlb, hmr⟩

lemma bidMeasure_cont_eq (st1 : Env) (q lb1 : Nat) :
    bidMeasure { st1 with current_player := (q + 1) % st1.num_players } lb1 =
      (maxBet st1.stacks - maxBet st1.bets).toNat * (st1.num_players + 1) +
        bidDist st1.num_players ((q + 1) % st1.num_players) lb1 := rfl

lemma bidMeasure_eq (st : Env) (lb : Nat) :
    bidMeasure st lb =
      (maxBet st.stacks - maxBet st.bets).toNat * (st.num_players + 1) +
        bidDist st.num_players st.current_player lb := rfl

lemma bidIter_step_of_acted (pol : Policy) (v : Bool) (st : Env) (lb : Nat)
    (st1 : Env) (lb1 : Nat)
    (hf : st.folded.getD st.current_player false = false)
    (hl1 : (get_available_actions st).length ≠ 1)
    (hA : (if (get_available_actions st).isEmpty then some (st, lb)
      else applyAction st lb (pol (st.agents.getD st.current_player 0) (get_state st)
        (get_available_actions st))) = some (st1, lb1))
    (hInvc : BidInv { st1 with current_player :=
      (st.current_player + 1) % st1.num_players } lb1)
    (hMeas : lb1 ≠ st.current_player →
      bidMeasure { st1 with current_player :=
        (st.current_player + 1) % st1.num_players } lb1 < bidMeasure st lb) :
    (∃ s, (bidIter pol v st lb).1 = BidStep.brk s) ∨
    (∃ s l, (bidIter pol v st lb).1 = BidStep.cont s l ∧ BidInv s l ∧
      bidMeasure s l < bidMeasure st lb) := by
  have hbe := bidIter_acted pol v st lb st1 lb1 hf hl1 hA
  by_cases hc1 : st1.folded.count true = st1.folded.length - 1
  · exact Or.inl ⟨st1, by rw [hbe, if_pos hc1]⟩
  · by_cases hc2 : lb1 = st.current_player
    · exact Or.inl ⟨st1, by rw [hbe, if_neg hc1, if_pos hc2]⟩
    · exact Or.inr ⟨_, lb1, by rw [hbe, if_neg hc1, if_neg hc2], hInvc, hMeas hc2⟩

lemma bidIter_step (pol : Policy) (hpol : LegalPolicy pol) (v : Bool) (st : Env) (lb : Nat)
    (hInv : BidInv st lb) :
    (∃ s, (bidIter pol v st lb).1 = BidStep.brk s) ∨
    (∃ s l, (bidIter pol v st lb).1 = BidStep.cont s l ∧ BidInv s l ∧
      bidMeasure s l < bidMeasure st lb) := by
  obtain ⟨hn2, hbl, hsl, hfl, hal, hcp, hlb, hmr⟩ := hInv
  by_cases hfold : st.folded.getD st.current_player false
  · by_cases hlbp : lb = st.current_player
    · exact Or.inl ⟨st, bidIter_folded_brk pol v st lb hfold hlbp⟩
    · right
      refine ⟨_, lb, bidIter_folded_cont pol v st lb hfold hlbp, ?_, ?_⟩
      · exact ⟨hn2, hbl, hsl, hfl, hal, Nat.mod_lt _ (by omega), hlb, hmr⟩
      · have hd := dist_dec st.num_players st.current_player lb hcp hlb hlbp
        rw [bidMeasure_cont_eq st st.current_player lb, bidMeasure_eq]
        omega
  · have hf' : st.folded.getD st.current_player false = false := by
      revert hfold
      cases st.folded.getD st.current_player false <;> simp
    by_cases hl1 : (get_available_actions st).length = 1
    · exact Or.inl ⟨st, bidIter_len1 pol v st lb hf' hl1⟩
    · by_cases hemp : (get_available_actions st).isEmpty
      · apply bidIter_step_of_acted pol v st lb st lb hf' hl1 (by rw [if_pos hemp])
        · exact BidInv_advance st lb hn2 hbl hsl hfl hal hlb hmr st.current_player
        · intro hc2
          have hd := dist_dec st.num_players st.current_player lb hcp hlb hc2
          rw [bidMeasure_cont_eq st st.current_player lb, bidMeasure_eq]
          omega
      · have hnil : get_available_actions st ≠ [] := by
          intro h
          rw [h] at hemp
          exact hemp rfl
        obtain ⟨o, ho, hoM⟩ := hpol (st.agents.getD st.current_player 0) (get_state st) _
          (gaa_fold_mem st hnil)
        cases o with
        | fold =>
          have hk : (pol (st.agents.getD st.current_player 0) (get_state st)
            (get_available_actions st)).kind = "fold" := hoM
          apply bidIter_step_of_acted pol v st lb
            { st with folded := st.folded.set st.current_player true } lb hf' hl1
          · rw [if_neg hemp]
            simp only [applyAction]
            rw [if_pos hk]
          · refine BidInv_advance { st with folded := st.folded.set st.current_player true }
              lb hn2 hbl hsl ?_ hal hlb hmr st.current_player
            show (st.folded.set st.current_player true).length = st.num_players
            rw [List.length_set]
            exact hfl
          · intro hc2
            have hd := dist_dec st.num_players st.current_player lb hcp hlb hc2
            show (maxBet st.stacks - maxBet st.bets).toNat * (st.num_players + 1) +
                bidDist st.num_players ((st.current_player + 1) % st.num_players) lb <
              (maxBet st.stacks - maxBet st.bets).toNat * (st.num_players + 1) +
                bidDist st.num_players st.current_player lb
            omega
        | check =>
          have hk : (pol (st.agents.getD st.current_player 0) (get_state st)
            (get_available_actions st)).kind = "check" := hoM
          apply bidIter_step_of_acted pol v st lb st lb hf' hl1
          · rw [if_neg hemp]
            simp only [applyAction]
            rw [if_neg (by rw [hk]; decide), if_pos hk]
          · exact BidInv_advance st lb hn2 hbl hsl hfl hal hlb hmr st.current_player
          · intro hc2
            have hd := dist_dec st.num_players st.current_player lb hcp hlb hc2
            rw [bidMeasure_cont_eq st st.current_player lb, bidMeasure_eq]
            omega
        | call c =>
          have hoM' : (pol (st.agents.getD st.current_player 0) (get_state st)
              (get_available_actions st)).kind = "call" ∧
            (pol (st.agents.getD st.current_player 0) (get_state st)
              (get_available_actions st)).amount = c := hoM
          obtain ⟨hk, hamt⟩ := hoM'
          obtain ⟨hcv, hcne⟩ := gaa_call_mem st c ho
          have hpb : st.current_player < st.bets.length := by omega
          apply bidIter_step_of_acted pol v st lb
            (apply_bet st st.current_player
              (pol (st.agents.getD st.current_player 0) (get_state st)
                (get_available_actions st)).amount) lb hf' hl1
          · rw [if_neg hemp]
            simp only [applyAction]
            rw [if_neg (by rw [hk]; decide), if_neg (by rw [hk]; decide), if_pos hk]
          · apply BidInv_advance
            · rw [apply_bet_num_players]
              exact hn2
            · rw [apply_bet_bets, apply_bet_num_players, List.length_set]
              exact hbl
            · rw [apply_bet_stacks, apply_bet_num_players]
              exact hsl
            · rw [apply_bet_folded, apply_bet_num_players]
              exact hfl
            · rw [apply_bet_all_in_length, apply_bet_num_players]
              exact hal
            · rw [apply_bet_num_players]
              exact hlb
            · rw [apply_bet_max_raise]
              exact hmr
          · intro hc2
            have hd := dist_dec st.num_players st.current_player lb hcp hlb hc2
            rw [bidMeasure_cont_eq _ st.current_player lb, bidMeasure_eq]
            rw [apply_bet_stacks, apply_bet_bets, apply_bet_num_players]
            rw [hamt, maxBet_call_preserved st.bets st.current_player c hpb hcne
              (by rw [hcv]; exact min_le_left _ _)]
            omega
        | raiseRange lo hi =>
          have hoM' : (pol (st.agents.getD st.current_player 0) (get_state st)
              (get_available_actions st)).kind = "raise" ∧
            (lo : Int) ≤ (pol (st.agents.getD st.current_player 0) (get_state st)
              (get_available_actions st)).amount ∧
            (pol (st.agents.getD st.current_player 0) (get_state st)
              (get_available_actions st)).amount ≤ hi := hoM
          obtain ⟨hk, hlo, hhi⟩ := hoM'
          obtain ⟨hgt, hhieq, hcases⟩ := gaa_raise_mem st lo hi ho
          have hpb : st.current_player < st.bets.length := by omega
          have hps : st.current_player < st.stacks.length := by omega
          have hamtgt : maxBet st.bets <
              (pol (st.agents.getD st.current_player 0) (get_state st)
                (get_available_actions st)).amount := by
            rcases hcases with ⟨_, hloeq⟩ | ⟨_, hloeq⟩
            · rw [hloeq] at hlo
              omega
            · rw [hloeq] at hlo
              omega
          have hamtle : (pol (st.agents.getD st.current_player 0) (get_state st)
              (get_available_actions st)).amount ≤ maxBet st.stacks := by
            have h1 : st.stacks.getD st.current_player 0 ∈ st.stacks :=
              getD_mem_of_lt st.stacks st.current_player 0 hps
            have h2 := le_maxBet st.stacks _ h1
            rw [hhieq] at hhi
            omega
          have hub : ∀ x ∈ st.bets,
              x ≤ (pol (st.agents.getD st.current_player 0) (get_state st)
                (get_available_actions st)).amount := by
            intro x hx
            have := le_maxBet st.bets x hx
            omega
          have hmb1 : maxBet (applyRaise st
              (pol (st.agents.getD st.current_player 0) (get_state st)
                (get_available_actions st)).amount).bets =
              (pol (st.agents.getD st.current_player 0) (get_state st)
                (get_available_actions st)).amount := by
            rw [applyRaise_bets]
            exact maxBet_raise_top st.bets st.current_player _ hpb hub
          apply bidIter_step_of_acted pol v st lb
            (applyRaise st
              (pol (st.agents.getD st.current_player 0) (get_state st)
                (get_available_actions st)).amount)
            ((st.current_player + st.num_players - 1) % st.num_players) hf' hl1
          · rw [if_neg hemp]
            simp only [applyAction]
            rw [if_neg (by rw [hk]; decide), if_neg (by rw [hk]; decide),
              if_neg (by rw [hk]; decide), if_pos hk]
          · apply BidInv_advance
            · rw [applyRaise_num_players]
              exact hn2
            · rw [applyRaise_bets, applyRaise_num_players, List.length_set]
              exact hbl
            · rw [applyRaise_stacks, applyRaise_num_players]
              exact hsl
            · rw [applyRaise_folded, applyRaise_num_players]
              exact hfl
            · rw [applyRaise_all_in_length, applyRaise_num_players]
              exact hal
            · rw [applyRaise_num_players]
              exact Nat.mod_lt _ (by omega)
            · rw [applyRaise_max_raise_eq]
              split <;> omega
          · intro _
            rw [bidMeasure_cont_eq _ st.current_player _, bidMeasure_eq]
            rw [applyRaise_stacks, applyRaise_num_players, hmb1]
            apply measure_lex
            · omega
            · have := dist_le st.num_players
                ((st.current_player + 1) % st.num_players)
                ((st.current_player + st.num_players - 1) % st.num_players)
                (Nat.mod_lt _ (by omega)) (Nat.mod_lt _ (by omega))
              omega

lemma stepBidGo_brk (pol : Policy) (v : Bool) (fuel : Nat) (st : Env) (lb : Nat) (s : Env)
    (hs : (bidIter pol v st lb).1 = BidStep.brk s) :
    stepBidGo pol v (fuel + 1) st lb = some (s, none, (bidIter pol v st lb).2) := by
  simp only [stepBidGo]
  rw [hs]

lemma stepBidGo_cont (pol : Policy) (v : Bool) (fuel : Nat) (st : Env) (lb : Nat)
    (s : Env) (l : Nat) (hs : (bidIter pol v st lb).1 = BidStep.cont s l) :
    stepBidGo pol v (fuel + 1) st lb =
      (stepBidGo pol v fuel s l).map
        (fun q => (q.1, q.2.1, (bidIter pol v st lb).2 ++ q.2.2)) := by
  simp only [stepBidGo]
  rw [hs]

lemma stepBidGo_term (pol : Policy) (hpol : LegalPolicy pol) (v : Bool) :
    ∀ (m : Nat) (st : Env) (lb : Nat), BidInv st lb → bidMeasure st lb ≤ m →
      ∃ st1 log, stepBidGo pol v (m + 1) st lb = some (st1, none, log) := by
  intro m
  induction m with
  | zero =>
    intro st lb hInv hm
    rcases bidIter_step pol hpol v st lb hInv with ⟨s, hs⟩ | ⟨s, l, _, _, hlt⟩
    · exact ⟨s, _, stepBidGo_brk pol v 0 st lb s hs⟩
    · omega
  | succ k ih =>
    intro st lb hInv hm
    rcases bidIter_step pol hpol v st lb hInv with ⟨s, hs⟩ | ⟨s, l, hs, hInv1, hlt⟩
    · exact ⟨s, _, stepBidGo_brk pol v (k + 1) st lb s hs⟩
    · obtain ⟨st1, log, h1⟩ := ih s l hInv1 (by omega)
      refine ⟨st1, (bidIter pol v st lb).2 ++ log, ?_⟩
      rw [stepBidGo_cont pol v (k + 1) st lb s l hs, h1]
      rfl

def c8Env : Env :=
  mkEnv [0, 1] ["player_A", "player_B"] [100, 100] [0, 0] [false, false] [false, false]

/-- C8: for every table state with at least two players, correctly sized
parallel arrays, the current player in range and a positive minimum-raise
floor (so each applied Raise strictly increases the maximum current bet,
which is bounded by the largest stack), and every policy whose returned
actions are members of the offered legal-action set, the betting-round loop
step_bid terminates: some finite fuel makes the fueled loop return normally,
so the round always ends after finitely many turns. -/
theorem c8_step_bid_terminates (pol : Policy) (v : Bool) (st : Env)
    (hpol : LegalPolicy pol)
    (hn2 : 2 ≤ st.num_players)
    (hbl : st.bets.length = st.num_players)
    (hsl : st.stacks.length = st.num_players)
    (hfl : st.folded.length = st.num_players)
    (hal : st.all_in.length = st.num_players)
    (hcp : st.current_player < st.num_players)
    (hmr : 1 ≤ st.max_raise) :
    ∃ fuel st1 log, step_bid pol v fuel st = some (st1, none, log) := by
  have hlb : (st.current_player + st.num_players - 1) % st.num_players < st.num_players :=
    Nat.mod_lt _ (by omega)
  have hInv : BidInv st ((st.current_player + st.num_players - 1) % st.num_players) :=
    ⟨hn2, hbl, hsl, hfl, hal, hcp, hlb, hmr⟩
  obtain ⟨st1, log, h⟩ := stepBidGo_term pol hpol v
    (bidMeasure st ((st.current_player + st.num_players - 1) % st.num_players)) st _ hInv le_rfl
  exact ⟨_, st1, log, h⟩

/-- Witness for C8 at a concrete two-player state and the always-fold
policy. -/
theorem c8_step_bid_terminates_witness :
    ∃ fuel st1 log,
      step_bid (fun _ _ _ => PAct.mk "fold" 0) false fuel c8Env = some (st1, none, log) :=
  c8_step_bid_terminates (fun _ _ _ => PAct.mk "fold" 0) false c8Env
    (fun _ _ _ h => ⟨Offer.fold, h, rfl⟩) (by decide) (by decide) (by decide)
    (by decide) (by decide) (by decide) (by decide)

/-! ### C10: the parallel-array invariant -/

/-- The parallel-array well-formedness invariant: the eight per-player
arrays all have length num_players, and the two dead lists (which kill
pushes to in lockstep) stay the same length. -/
def WF (st : Env) : Prop :=
  st.stacks.length = st.num_players ∧
  st.bets.length = st.num_players ∧
  st.folded.length = st.num_players ∧
  st.all_in.length = st.num_players ∧
  st.rewards.length = st.num_players ∧
  st.player_cards.length = st.num_players ∧
  st.names.length = st.num_players ∧
  st.agents.length = st.num_players ∧
  st.dead_names.length = st.dead_agents.length

instance (st : Env) : Decidable (WF st) := by
  unfold WF
  infer_instance

lemma dealPartial_length : ∀ (n : Nat) (d : List String), (dealPartial n d).length = n
  | 0, _ => rfl
  | k + 1, c1 :: c2 :: rest => by simp [dealPartial, dealPartial_length k rest]
  | k + 1, [] => by simp [dealPartial]
  | k + 1, [c] => by simp [dealPartial]

lemma dealHole_length : ∀ (n : Nat) (d : List String) (r : List (List String) × List String),
    dealHole n d = some r → r.1.length = n := by
  intro n
  induction n with
  | zero =>
    intro d r h
    simp only [dealHole, Option.some.injEq] at h
    rw [← h]
    rfl
  | succ k ih =>
    intro d r h
    match d with
    | [] => exact Option.noConfusion h
    | [c] => exact Option.noConfusion h
    | c1 :: c2 :: rest =>
      simp only [dealHole] at h
      cases hq : dealHole k rest with
      | none => rw [hq] at h; exact Option.noConfusion h
      | some q =>
        rw [hq] at h
        have h2 := Option.some.inj h
        rw [← h2]
        simp [ih rest q hq]

lemma apply_bet_agents (st : Env) (p : Nat) (a : Int) :
    (apply_bet st p a).agents = st.agents := by
  simp only [apply_bet]
  split <;> rfl

lemma apply_bet_names (st : Env) (p : Nat) (a : Int) :
    (apply_bet st p a).names = st.names := by
  simp only [apply_bet]
  split <;> rfl

lemma apply_bet_dead_agents (st : Env) (p : Nat) (a : Int) :
    (apply_bet st p a).dead_agents = st.dead_agents := by
  simp only [apply_bet]
  split <;> rfl

lemma apply_bet_dead_names (st : Env) (p : Nat) (a : Int) :
    (apply_bet st p a).dead_names = st.dead_names := by
  simp only [apply_bet]
  split <;> rfl

lemma apply_bet_rewards (st : Env) (p : Nat) (a : Int) :
    (apply_bet st p a).rewards = st.rewards := by
  simp only [apply_bet]
  split <;> rfl

lemma apply_bet_player_cards (st : Env) (p : Nat) (a : Int) :
    (apply_bet st p a).player_cards = st.player_cards := by
  simp only [apply_bet]
  split <;> rfl

lemma apply_bet_WF (st : Env) (p : Nat) (a : Int) (h : WF st) : WF (apply_bet st p a) := by
  obtain ⟨h1, h2, h3, h4, h5, h6, h7, h8, h9⟩ := h
  refine ⟨?_, ?_, ?_, ?_, ?_, ?_, ?_, ?_, ?_⟩ <;>
    simp [apply_bet_stacks, apply_bet_bets, apply_bet_folded, apply_bet_all_in_length,
      apply_bet_rewards, apply_bet_player_cards, apply_bet_names, apply_bet_agents,
      apply_bet_dead_agents, apply_bet_dead_names, apply_bet_num_players,
      List.length_set, h1, h2, h3, h4, h5, h6, h7, h8, h9]

lemma kill_WF (st : Env) (p : Nat) (h : WF st) (hp : p < st.num_players) : WF (kill st p) := by
  obtain ⟨h1, h2, h3, h4, h5, h6, h7, h8, h9⟩ := h
  refine ⟨?_, ?_, ?_, ?_, ?_, ?_, ?_, ?_, ?_⟩ <;>
    simp [kill, List.length_eraseIdx, h1, h2, h3, h4, h5, h6, h7, h8, h9, hp]

lemma applyRaise_WF (st : Env) (a : Int) (h : WF st) : WF (applyRaise st a) := by
  simp only [applyRaise]
  apply apply_bet_WF
  split
  · exact h
  · exact h

lemma applyAction_WF (st : Env) (lb : Nat) (a : PAct) (st1 : Env) (lb1 : Nat)
    (h : applyAction st lb a = some (st1, lb1)) (hw : WF st) : WF st1 := by
  obtain ⟨h1, h2, h3, h4, h5, h6, h7, h8, h9⟩ := hw
  simp only [applyAction] at h
  split_ifs at h
  · simp only [Option.some.injEq, Prod.mk.injEq] at h
    obtain ⟨he, _⟩ := h
    subst he
    refine ⟨?_, ?_, ?_, ?_, ?_, ?_, ?_, ?_, ?_⟩ <;>
      simp [List.length_set, h1, h2, h3, h4, h5, h6, h7, h8, h9]
  · simp only [Option.some.injEq, Prod.mk.injEq] at h
    obtain ⟨he, _⟩ := h
    subst he
    exact ⟨h1, h2, h3, h4, h5, h6, h7, h8, h9⟩
  · simp only [Option.some.injEq, Prod.mk.injEq] at h
    obtain ⟨he, _⟩ := h
    subst he
    exact apply_bet_WF _ _ _ ⟨h1, h2, h3, h4, h5, h6, h7, h8, h9⟩
  · simp only [Option.some.injEq, Prod.mk.injEq] at h
    obtain ⟨he, _⟩ := h
    subst he
    exact applyRaise_WF _ _ ⟨h1, h2, h3, h4, h5, h6, h7, h8, h9⟩

lemma reset_agents (d : List String) (st : Env) : (reset d st).1.agents = st.agents := by
  simp only [reset]
  split
  · rfl
  · simp [apply_bet_agents]

lemma reset_names (d : List String) (st : Env) : (reset d st).1.names = st.names := by
  simp only [reset]
  split
  · rfl
  · simp [apply_bet_names]

lemma reset_num_players (d : List String) (st : Env) :
    (reset d st).1.num_players = st.num_players := by
  simp only [reset]
  split
  · rfl
  · simp [apply_bet_num_players]

lemma reset_dead_agents (d : List String) (st : Env) :
    (reset d st).1.dead_agents = st.dead_agents := by
  simp only [reset]
  split
  · rfl
  · simp [apply_bet_dead_agents]

lemma reset_dead_names (d : List String) (st : Env) :
    (reset d st).1.dead_names = st.dead_names := by
  simp only [reset]
  split
  · rfl
  · simp [apply_bet_dead_names]

lemma reset_WF (d : List String) (st : Env)
    (hs : st.stacks.length = st.num_players)
    (hn : st.names.length = st.num_players)
    (ha : st.agents.length = st.num_players)
    (hd : st.dead_names.length = st.dead_agents.length) : WF (reset d st).1 := by
  cases hdh : dealHole st.num_players d with
  | none =>
    simp only [reset, hdh]
    refine ⟨?_, ?_, ?_, ?_, ?_, ?_, ?_, ?_, ?_⟩ <;>
      simp [dealPartial_length, hs, hn, ha, hd]
  | some r =>
    simp only [reset, hdh]
    refine ⟨?_, ?_, ?_, ?_, ?_, ?_, ?_, ?_, ?_⟩ <;>
      simp [apply_bet_stacks, apply_bet_bets, apply_bet_folded, apply_bet_all_in_length,
        apply_bet_rewards, apply_bet_player_cards, apply_bet_names, apply_bet_agents,
        apply_bet_dead_agents, apply_bet_dead_names, apply_bet_num_players,
        dealHole_length _ _ _ hdh, hs, hn, ha, hd]

/-- The Env carried by a BidStep. -/
def bidStepEnv : BidStep → Env
  | BidStep.brk s => s
  | BidStep.cont s _ => s
  | BidStep.invalid s => s

lemma bidIter_WF (pol : Policy) (v : Bool) (st : Env) (lb : Nat) (hw : WF st) :
    WF (bidStepEnv (bidIter pol v st lb).1) := by
  simp only [bidIter]
  split
  · split
    · exact hw
    · exact hw
  · split
    · exact hw
    · split
      · exact hw
      · rename_i st1 lb1 heq
        have hw1 : WF st1 := by
          by_cases he : (get_available_actions st).isEmpty
          · rw [if_pos he] at heq
            have h2 := Option.some.inj heq
            have h3 : st = st1 := congrArg Prod.fst h2
            exact h3 ▸ hw
          · rw [if_neg he] at heq
            exact applyAction_WF st lb _ st1 lb1 heq hw
        split
        · exact hw1
        · split
          · exact hw1
          · exact hw1

lemma stepBidGo_WF (pol : Policy) (v : Bool) :
    ∀ (fuel : Nat) (st : Env) (lb : Nat) (r : Env × Option String × List String),
      WF st → stepBidGo pol v fuel st lb = some r → WF r.1 := by
  intro fuel
  induction fuel with
  | zero =>
    intro st lb r _ h
    exact Option.noConfusion h
  | succ k ih =>
    intro st lb r hw h
    simp only [stepBidGo] at h
    cases hb : (bidIter pol v st lb).1 with
    | brk st1 =>
      rw [hb] at h
      have h2 := Option.some.inj h
      have hw1 := bidIter_WF pol v st lb hw
      rw [hb] at hw1
      rw [← h2]
      exact hw1
    | invalid st1 =>
      rw [hb] at h
      have h2 := Option.some.inj h
      have hw1 := bidIter_WF pol v st lb hw
      rw [hb] at hw1
      rw [← h2]
      exact hw1
    | cont st1 lb1 =>
      rw [hb] at h
      have hw1 := bidIter_WF pol v st lb hw
      rw [hb] at hw1
      have h' : (stepBidGo pol v k st1 lb1).map
          (fun q => (q.1, q.2.1, (bidIter pol v st lb).2 ++ q.2.2)) = some r := h
      cases hq : stepBidGo pol v k st1 lb1 with
      | none => rw [hq] at h'; exact Option.noConfusion h'
      | some q =>
        rw [hq] at h'
        have h2 := Option.some.inj h'
        rw [← h2]
        exact ih st1 lb1 q hw1 hq

lemma advance_phase_WF (v : Bool) (st : Env) (hw : WF st) : WF (advance_phase v st).1 := by
  simp only [advance_phase]
  split <;> first
    | exact hw
    | (split <;> exact hw)

lemma distribute_length (v : Bool) (scores : List (String × Int)) (names : List String) :
    ∀ (ps : List Int) (pns : List (List String)) (stks : List Int) (rest : Int) (i : Nat)
      (r : List Int × Int × List String),
      distribute v scores names ps pns stks rest i = some r → r.1.length = stks.length := by
  intro ps
  induction ps with
  | nil =>
    intro pns stks rest i r h
    have h2 := Option.some.inj h
    rw [← h2]
  | cons p ps ih =>
    intro pns stks rest i r h
    simp only [distribute] at h
    by_cases hz : p = 0
    · rw [if_pos hz] at h
      exact ih pns stks rest i r h
    · rw [if_neg hz] at h
      by_cases hwz : (pickWinners (pns.getD i []) scores).length = 0
      · rw [if_pos hwz] at h
        exact Option.noConfusion h
      · rw [if_neg hwz] at h
        cases hq : distribute v scores names ps pns
            (payWinners (pickWinners (pns.getD i []) scores)
              (p / ((pickWinners (pns.getD i []) scores).length : Int)) stks names)
            (rest + p % ((pickWinners (pns.getD i []) scores).length : Int)) (i + 1) with
        | none => rw [hq] at h; exact Option.noConfusion h
        | some q =>
          rw [hq] at h
          have h2 := Option.some.inj h
          rw [← h2]
          have h3 := ih _ _ _ _ q hq
          rw [h3, payWinners_length]

lemma settleLoop_WF (v : Bool) : ∀ (fuel : Nat) (j : Nat) (st : Env),
    WF st → WF (settleLoop v fuel j st).1 := by
  intro fuel
  induction fuel with
  | zero => intro j st hw; exact hw
  | succ k ih =>
    intro j st hw
    obtain ⟨h1, h2, h3, h4, h5, h6, h7, h8, h9⟩ := hw
    simp only [settleLoop]
    by_cases hj : j < st.num_players
    · rw [if_pos hj]
      have hw1 : WF { st with
          «stacks» := st.stacks.set j (st.stacks.getD j 0 - st.bets.getD j 0) } := by
        refine ⟨?_, h2, h3, h4, h5, h6, h7, h8, h9⟩
        show (st.stacks.set j _).length = st.num_players
        rw [List.length_set]
        exact h1
      by_cases hz : ({ st with
          «stacks» := st.stacks.set j (st.stacks.getD j 0 - st.bets.getD j 0) : Env
          }).stacks.getD j 0 = 0
      · rw [if_pos hz]
        exact ih j _ (kill_WF _ j hw1 hj)
      · rw [if_neg hz]
        exact ih (j + 1) _ hw1
    · rw [if_neg hj]
      exact ⟨h1, h2, h3, h4, h5, h6, h7, h8, h9⟩

lemma resolutionCore_WF (rank : Rank) (v : Bool) (st : Env)
    (r : Env × Int × List String) (hw : WF st)
    (h : resolutionCore rank v st = some r) : WF r.1 := by
  obtain ⟨h1, h2, h3, h4, h5, h6, h7, h8, h9⟩ := hw
  simp only [resolutionCore] at h
  split at h
  · exact Option.noConfusion h
  · rename_i ptn _
    split at h
    · exact Option.noConfusion h
    · rename_i dr hd
      have h2' := Option.some.inj h
      rw [← h2']
      have hlen := distribute_length v _ st.names ptn.1 ptn.2 st.stacks 0 0 dr hd
      have hw2 : WF { st with «stacks» := dr.1 } := by
        refine ⟨?_, h2, h3, h4, h5, h6, h7, h8, h9⟩
        show dr.1.length = st.num_players
        rw [hlen]
        exact h1
      exact settleLoop_WF v (st.num_players + 1) 0 _ hw2

lemma resolution_WF (rank : Rank) (v : Bool) (st : Env)
    (r : Env × List String) (hw : WF st)
    (h : resolution rank v st = some r) : WF r.1 := by
  simp only [resolution] at h
  split at h
  · exact Option.noConfusion h
  · rename_i q hc
    split at h
    · have h2 := Option.some.inj h
      rw [← h2]
      exact resolutionCore_WF rank v st q hw hc
    · exact Option.noConfusion h

lemma revive_agents (d : List String) (st : Env) :
    (revive d st).1.agents = st.agents ++ st.dead_agents := by
  simp only [revive]
  rw [reset_agents]

lemma revive_names (d : List String) (st : Env) :
    (revive d st).1.names = st.names ++ st.dead_names := by
  simp only [revive]
  rw [reset_names]

lemma revive_dead_agents (d : List String) (st : Env) :
    (revive d st).1.dead_agents = [] := by
  simp only [revive]
  rw [reset_dead_agents]

lemma revive_dead_names (d : List String) (st : Env) :
    (revive d st).1.dead_names = [] := by
  simp only [revive]
  rw [reset_dead_names]

lemma revive_num_players (d : List String) (st : Env) :
    (revive d st).1.num_players = st.agents.length + st.dead_agents.length := by
  simp only [revive]
  rw [reset_num_players]
  simp

lemma revive_WF (d : List String) (st : Env) (hw : WF st) : WF (revive d st).1 := by
  obtain ⟨h1, h2, h3, h4, h5, h6, h7, h8, h9⟩ := hw
  simp only [revive]
  refine reset_WF d _ ?_ ?_ ?_ ?_
  · simp
  · show (st.names ++ st.dead_names).length = (st.agents ++ st.dead_agents).length
    simp only [List.length_append]
    omega
  · rfl
  · rfl

lemma phaseLoop_WF (pol : Policy) (rank : Rank) (v : Bool) :
    ∀ (fuel : Nat) (i : Int) (st : Env) (r : POut),
      WF st → phaseLoop pol rank v fuel i st = some r → WF r.env := by
  intro fuel
  induction fuel with
  | zero =>
    intro i st r _ h
    exact Option.noConfusion h
  | succ k ih =>
    intro i st r hw h
    simp only [phaseLoop] at h
    split at h
    · exact Option.noConfusion h
    · rename_i b hb
      have hwb : WF b.1 := by
        by_cases hg : st.folded.count true ≠ st.num_players - 1
        · rw [if_pos hg] at hb
          exact stepBidGo_WF pol v k st _ b hw hb
        · rw [if_neg hg] at hb
          have h2 := Option.some.inj hb
          have h3 : st = b.1 := congrArg Prod.fst h2
          exact h3 ▸ hw
      split at h
      · have h2 := Option.some.inj h
        rw [← h2]
        exact hwb
      · have hwa : WF (advance_phase v b.1).1 := advance_phase_WF v b.1 hwb
        split at h
        · have h2 := Option.some.inj h
          rw [← h2]
          exact hwa
        · split at h
          · split at h
            · exact Option.noConfusion h
            · rename_i rr hr
              have h2 := Option.some.inj h
              rw [← h2]
              exact resolution_WF rank v _ rr hwa hr
          · cases hq : phaseLoop pol rank v k (i + 1) (advance_phase v b.1).1 with
            | none => rw [hq] at h; exact Option.noConfusion h
            | some q =>
              rw [hq] at h
              have h2 := Option.some.inj h
              rw [← h2]
              exact ih (i + 1) _ q hwa hq

lemma handLoop_WF (pol : Policy) (rank : Rank) (decks : Nat → List String) (v : Bool) :
    ∀ (fuel : Nat) (i : Int) (dc : Nat) (st : Env) (r : GOut),
      WF st → handLoop pol rank decks v fuel i dc st = some r → WF r.env := by
  intro fuel
  induction fuel with
  | zero =>
    intro i dc st r _ h
    exact Option.noConfusion h
  | succ k ih =>
    intro i dc st r hw h
    obtain ⟨h1, h2, h3, h4, h5, h6, h7, h8, h9⟩ := hw
    simp only [handLoop] at h
    by_cases hg : 1 < st.num_players
    · rw [if_pos hg] at h
      split at h
      · rename_i st1 e hr
        have h2' := Option.some.inj h
        rw [← h2']
        have hres := reset_WF (decks dc) st h1 h7 h8 h9
        rw [hr] at hres
        exact hres
      · rename_i st1 hr
        have hw1 : WF st1 := by
          have hres := reset_WF (decks dc) st h1 h7 h8 h9
          rw [hr] at hres
          exact hres
        split at h
        · exact Option.noConfusion h
        · rename_i p hp
          have hwp : WF p.env := phaseLoop_WF pol rank v k i st1 p hw1 hp
          split at h
          · have h2' := Option.some.inj h
            rw [← h2']
            exact hwp
          · cases hq : handLoop pol rank decks v k p.i (dc + 1) p.env with
            | none => rw [hq] at h; exact Option.noConfusion h
            | some q =>
              rw [hq] at h
              have h2' := Option.some.inj h
              rw [← h2']
              exact ih p.i (dc + 1) p.env q hwp hq
    · rw [if_neg hg] at h
      have h2' := Option.some.inj h
      rw [← h2']
      exact ⟨h1, h2, h3, h4, h5, h6, h7, h8, h9⟩

lemma episodeLoop_WF (pol : Policy) (rank : Rank) (decks : Nat → List String) (v : Bool)
    (episode : Int) :
    ∀ (fuel : Nat) (i : Int) (dc : Nat) (st : Env) (r : GOut),
      WF st → episodeLoop pol rank decks v episode fuel i dc st = some r → WF r.env := by
  intro fuel
  induction fuel with
  | zero =>
    intro i dc st r _ h
    exact Option.noConfusion h
  | succ k ih =>
    intro i dc st r hw h
    simp only [episodeLoop] at h
    by_cases hg : i ≤ episode
    · rw [if_pos hg] at h
      split at h
      · exact Option.noConfusion h
      · rename_i p hp
        have hwp : WF p.env := handLoop_WF pol rank decks v k i dc st p hw hp
        split at h
        · have h2' := Option.some.inj h
          rw [← h2']
          exact hwp
        · split at h
          · rename_i st2 e hr
            have h2' := Option.some.inj h
            rw [← h2']
            have hres := revive_WF (decks p.dcount) p.env hwp
            rw [hr] at hres
            exact hres
          · rename_i st2 hr
            have hw2 : WF st2 := by
              have hres := revive_WF (decks p.dcount) p.env hwp
              rw [hr] at hres
              exact hres
            cases hq : episodeLoop pol rank decks v episode k p.i (p.dcount + 1) st2 with
            | none => rw [hq] at h; exact Option.noConfusion h
            | some q =>
              rw [hq] at h
              have h2' := Option.some.inj h
              rw [← h2']
              exact ih p.i (p.dcount + 1) st2 q hw2 hq
    · rw [if_neg hg] at h
      have h2' := Option.some.inj h
      rw [← h2']
      exact hw

lemma play_game_WF (pol : Policy) (rank : Rank) (decks : Nat → List String) (v : Bool)
    (fuel : Nat) (episode : Int) (st : Env) (r : Env × Option String × List String)
    (hw : WF st) (h : play_game pol rank decks v fuel episode st = some r) : WF r.1 := by
  simp only [play_game] at h
  cases hq : episodeLoop pol rank decks v episode fuel 1 0 st with
  | none => rw [hq] at h; exact Option.noConfusion h
  | some q =>
    rw [hq] at h
    have h2 := Option.some.inj h
    rw [← h2]
    exact episodeLoop_WF pol rank decks v episode fuel 1 0 st q hw hq

/-- C10: every public operation preserves the parallel-array invariant WF
(the eight per-player arrays stacks, bets, folded, all_in, rewards,
player_cards, names and agents all have length num_players): apply_bet,
reset, advance_phase, step_bid, resolution and a full play_game all map WF
states to WF states; kill removes exactly the given index from every one of
the eight arrays, moves the agent and the name onto the dead lists, and
decrements num_players by one, preserving WF; revive re-appends all dead
players to the live arrays, empties the dead lists, renumbers consecutively
(num_players becomes the total player count again) and yields a WF state. -/
theorem c10_parallel_arrays :
    (∀ (st : Env) (p : Nat) (a : Int), WF st → WF (apply_bet st p a)) ∧
    (∀ (st : Env) (p : Nat), WF st → p < st.num_players →
      WF (kill st p) ∧
      (kill st p).num_players = st.num_players - 1 ∧
      (kill st p).stacks = st.stacks.eraseIdx p ∧
      (kill st p).bets = st.bets.eraseIdx p ∧
      (kill st p).folded = st.folded.eraseIdx p ∧
      (kill st p).all_in = st.all_in.eraseIdx p ∧
      (kill st p).rewards = st.rewards.eraseIdx p ∧
      (kill st p).player_cards = st.player_cards.eraseIdx p ∧
      (kill st p).names = st.names.eraseIdx p ∧
      (kill st p).agents = st.agents.eraseIdx p ∧
      (kill st p).dead_agents = st.dead_agents ++ [st.agents.getD p 0] ∧
      (kill st p).dead_names = st.dead_names ++ [st.names.getD p ""]) ∧
    (∀ (d : List String) (st : Env), WF st → WF (reset d st).1) ∧
    (∀ (v : Bool) (st : Env), WF st → WF (advance_phase v st).1) ∧
    (∀ (pol : Policy) (v : Bool) (fuel : Nat) (st : Env)
      (r : Env × Option String × List String),
      WF st → step_bid pol v fuel st = some r → WF r.1) ∧
    (∀ (rank : Rank) (v : Bool) (st : Env) (r : Env × List String),
      WF st → resolution rank v st = some r → WF r.1) ∧
    (∀ (d : List String) (st : Env), WF st →
      (revive d st).1.agents = st.agents ++ st.dead_agents ∧
      (revive d st).1.names = st.names ++ st.dead_names ∧
      (revive d st).1.dead_agents = [] ∧
      (revive d st).1.dead_names = [] ∧
      (revive d st).1.num_players = st.agents.length + st.dead_agents.length ∧
      WF (revive d st).1) ∧
    (∀ (pol : Policy) (rank : Rank) (decks : Nat → List String) (v : Bool)
      (fuel : Nat) (episode : Int) (st : Env) (r : Env × Option String × List String),
      WF st → play_game pol rank decks v fuel episode st = some r → WF r.1) := by
  refine ⟨?_, ?_, ?_, ?_, ?_, ?_, ?_, ?_⟩
  · exact fun st p a h => apply_bet_WF st p a h
  · intro st p h hp
    exact ⟨kill_WF st p h hp, rfl, rfl, rfl, rfl, rfl, rfl, rfl, rfl, rfl, rfl, rfl⟩
  · intro d st h
    obtain ⟨h1, h2, h3, h4, h5, h6, h7, h8, h9⟩ := h
    exact reset_WF d st h1 h7 h8 h9
  · exact fun v st h => advance_phase_WF v st h
  · exact fun pol v fuel st r h hs => stepBidGo_WF pol v fuel st _ r h hs
  · exact fun rank v st r h hs => resolution_WF rank v st r h hs
  · intro d st h
    exact ⟨revive_agents d st, revive_names d st, revive_dead_agents d st,
      revive_dead_names d st, revive_num_players d st, revive_WF d st h⟩
  · exact fun pol rank decks v fuel episode st r h hs =>
      play_game_WF pol rank decks v fuel episode st r h hs

/-- Witness for C10: the kill and revive clauses instantiated on a concrete
well-formed two-player state. -/
theorem c10_parallel_arrays_witness :
    WF (kill c8Env 0) ∧ (kill c8Env 0).num_players = 1 ∧
    (revive [] c8Env).1.num_players = 2 ∧ WF (apply_bet c8Env 0 40) :=
  ⟨(c10_parallel_arrays.2.1 c8Env 0 (by decide) (by decide)).1,
   (c10_parallel_arrays.2.1 c8Env 0 (by decide) (by decide)).2.1,
   (c10_parallel_arrays.2.2.2.2.2.2.1 [] c8Env (by decide)).2.2.2.2.1,
   c10_parallel_arrays.1 c8Env 0 40 (by decide)⟩

/-! ### C7: verbose is pure observability -/

lemma map_eq_cases {α β : Type _} (pr : α → β) (x y : Option α) (h : x.map pr = y.map pr) :
    (x = none ∧ y = none) ∨ (∃ a b, x = some a ∧ y = some b ∧ pr a = pr b) := by
  cases x with
  | none =>
    cases y with
    | none => exact Or.inl ⟨rfl, rfl⟩
    | some b => exact Option.noConfusion h
  | some a =>
    cases y with
    | none => exact Option.noConfusion h
    | some b => exact Or.inr ⟨a, b, rfl, rfl, Option.some.inj h⟩

lemma bidIter_pure (pol : Policy) (v1 v2 : Bool) (st : Env) (lb : Nat) :
    (bidIter pol v1 st lb).1 = (bidIter pol v2 st lb).1 := by
  simp only [bidIter]
  repeat' split
  all_goals rfl

lemma stepBidGo_pure (pol : Policy) (v1 v2 : Bool) :
    ∀ (fuel : Nat) (st : Env) (lb : Nat),
      (stepBidGo pol v1 fuel st lb).map (fun r => (r.1, r.2.1)) =
      (stepBidGo pol v2 fuel st lb).map (fun r => (r.1, r.2.1)) := by
  intro fuel
  induction fuel with
  | zero => intro st lb; rfl
  | succ k ih =>
    intro st lb
    have hb2 := bidIter_pure pol v1 v2 st lb
    simp only [stepBidGo]
    cases hb : (bidIter pol v1 st lb).1 with
    | brk s =>
      rw [hb] at hb2
      rw [← hb2]
      rfl
    | invalid s =>
      rw [hb] at hb2
      rw [← hb2]
      rfl
    | cont s l =>
      rw [hb] at hb2
      rw [← hb2]
      simp only [Option.map_map]
      exact ih s l

lemma step_bid_pure (pol : Policy) (v1 v2 : Bool) (fuel : Nat) (st : Env) :
    (step_bid pol v1 fuel st).map (fun r => (r.1, r.2.1)) =
    (step_bid pol v2 fuel st).map (fun r => (r.1, r.2.1)) :=
  stepBidGo_pure pol v1 v2 fuel st _

lemma advance_phase_pure (v1 v2 : Bool) (st : Env) :
    ((advance_phase v1 st).1, (advance_phase v1 st).2.1) =
    ((advance_phase v2 st).1, (advance_phase v2 st).2.1) := by
  simp only [advance_phase]
  repeat' split
  all_goals rfl

lemma settleLoop_pure (v1 v2 : Bool) : ∀ (fuel : Nat) (j : Nat) (st : Env),
    (settleLoop v1 fuel j st).1 = (settleLoop v2 fuel j st).1 := by
  intro fuel
  induction fuel with
  | zero => intro j st; rfl
  | succ k ih =>
    intro j st
    simp only [settleLoop]
    split
    · split
      · exact ih j _
      · exact ih (j + 1) _
    · rfl

lemma distribute_pure (v1 v2 : Bool) (scores : List (String × Int)) (names : List String) :
    ∀ (ps : List Int) (pns : List (List String)) (stks : List Int) (rest : Int) (i : Nat),
      (distribute v1 scores names ps pns stks rest i).map (fun r => (r.1, r.2.1)) =
      (distribute v2 scores names ps pns stks rest i).map (fun r => (r.1, r.2.1)) := by
  intro ps
  induction ps with
  | nil => intro pns stks rest i; rfl
  | cons p ps ih =>
    intro pns stks rest i
    simp only [distribute]
    by_cases hz : p = 0
    · rw [if_pos hz, if_pos hz]
      exact ih pns stks rest i
    · rw [if_neg hz, if_neg hz]
      by_cases hwz : (pickWinners (pns.getD i []) scores).length = 0
      · rw [if_pos hwz, if_pos hwz]
      · rw [if_neg hwz, if_neg hwz]
        rw [Option.map_map, Option.map_map]
        exact ih pns _ _ (i + 1)

lemma resolutionCore_pure (rank : Rank) (v1 v2 : Bool) (st : Env) :
    (resolutionCore rank v1 st).map (fun r => (r.1, r.2.1)) =
    (resolutionCore rank v2 st).map (fun r => (r.1, r.2.1)) := by
  simp only [resolutionCore]
  split
  · rfl
  · rename_i ptn hptn
    have hd := distribute_pure v1 v2
      (sortDesc (scoresOf rank (String.join st.community_cards) st.names st.folded
        st.player_cards)) st.names ptn.1 ptn.2 st.stacks 0 0
    rcases map_eq_cases _ _ _ hd with ⟨hd1, hd2⟩ | ⟨a, b, hd1, hd2, hab⟩
    · rw [hd1, hd2]
    · rw [hd1, hd2]
      simp only [Prod.mk.injEq] at hab
      obtain ⟨ha1, ha2⟩ := hab
      show (some ((settleLoop v1 (st.num_players + 1) 0 { st with «stacks» := a.1 }).1,
          a.2.1) : Option (Env × Int)) =
        some ((settleLoop v2 (st.num_players + 1) 0 { st with «stacks» := b.1 }).1, b.2.1)
      rw [ha1, ha2, settleLoop_pure v1 v2]

lemma resolution_pure (rank : Rank) (v1 v2 : Bool) (st : Env) :
    (resolution rank v1 st).map (fun r => r.1) =
    (resolution rank v2 st).map (fun r => r.1) := by
  simp only [resolution]
  have hc := resolutionCore_pure rank v1 v2 st
  rcases map_eq_cases _ _ _ hc with ⟨hc1, hc2⟩ | ⟨a, b, hc1, hc2, hab⟩
  · rw [hc1, hc2]
  · rw [hc1, hc2]
    simp only [Prod.mk.injEq] at hab
    obtain ⟨ha1, ha2⟩ := hab
    show (if a.1.stacks.sum + a.2.1 = st.stacks.sum then some (a.1, a.2.2) else none).map
        (fun r => r.1) =
      (if b.1.stacks.sum + b.2.1 = st.stacks.sum then some (b.1, b.2.2) else none).map
        (fun r => r.1)
    rw [ha1, ha2]
    split <;> rfl

lemma phaseLoop_pure (pol : Policy) (rank : Rank) (v1 v2 : Bool) :
    ∀ (fuel : Nat) (i : Int) (st : Env),
      (phaseLoop pol rank v1 fuel i st).map (fun r => (r.env, r.i, r.err)) =
      (phaseLoop pol rank v2 fuel i st).map (fun r => (r.env, r.i, r.err)) := by
  intro fuel
  induction fuel with
  | zero => intro i st; rfl
  | succ k ih =>
    intro i st
    simp only [phaseLoop]
    have halign :
        (if st.folded.count true ≠ st.num_players - 1 then step_bid pol v1 k st
          else some (st, none, [])).map (fun r => (r.1, r.2.1)) =
        (if st.folded.count true ≠ st.num_players - 1 then step_bid pol v2 k st
          else some (st, none, [])).map (fun r => (r.1, r.2.1)) := by
      by_cases hg : st.folded.count true ≠ st.num_players - 1
      · rw [if_pos hg, if_pos hg]
        exact step_bid_pure pol v1 v2 k st
      · rw [if_neg hg, if_neg hg]
    rcases map_eq_cases _ _ _ halign with ⟨h1, h2⟩ | ⟨b1, b2, h1, h2, hb⟩
    · rw [h1, h2]
    · obtain ⟨e1, q1, l1⟩ := b1
      obtain ⟨e2, q2, l2⟩ := b2
      simp only [Prod.mk.injEq] at hb
      obtain ⟨hbe, hbq⟩ := hb
      subst hbe
      subst hbq
      rw [h1, h2]
      cases q1 with
      | some e => rfl
      | none =>
        have hap := advance_phase_pure v1 v2 e1
        simp only [Prod.mk.injEq] at hap
        obtain ⟨hap1, hap2⟩ := hap
        simp only []
        rw [← hap1, ← hap2]
        cases hq : (advance_phase v1 e1).2.1 with
        | some e => rfl
        | none =>
          by_cases hsd : (advance_phase v1 e1).1.current_phase = Phase.showdown
          · rw [if_pos hsd, if_pos hsd]
            have hres := resolution_pure rank v1 v2 (advance_phase v1 e1).1
            rcases map_eq_cases _ _ _ hres with ⟨hr1, hr2⟩ | ⟨a, b, hr1, hr2, hab⟩
            · rw [hr1, hr2]
            · rw [hr1, hr2]
              simp [hab]
          · rw [if_neg hsd, if_neg hsd]
            have hrec := ih (i + 1) (advance_phase v1 e1).1
            rcases map_eq_cases _ _ _ hrec with ⟨hr1, hr2⟩ | ⟨a, b, hr1, hr2, hab⟩
            · rw [hr1, hr2]
              rfl
            · rw [hr1, hr2]
              simp only [Prod.mk.injEq] at hab
              obtain ⟨hab1, hab2, hab3⟩ := hab
              simp [hab1, hab2, hab3]

lemma handLoop_pure (pol : Policy) (rank : Rank) (decks : Nat → List String) (v1 v2 : Bool) :
    ∀ (fuel : Nat) (i : Int) (dc : Nat) (st : Env),
      (handLoop pol rank decks v1 fuel i dc st).map (fun r => (r.env, r.i, r.dcount, r.err)) =
      (handLoop pol rank decks v2 fuel i dc st).map (fun r => (r.env, r.i, r.dcount, r.err)) := by
  intro fuel
  induction fuel with
  | zero => intro i dc st; rfl
  | succ k ih =>
    intro i dc st
    simp only [handLoop]
    by_cases hg : 1 < st.num_players
    · rw [if_pos hg, if_pos hg]
      rcases hr : reset (decks dc) st with ⟨st1, oe⟩
      cases oe with
      | some e => rfl
      | none =>
        simp only []
        have hp := phaseLoop_pure pol rank v1 v2 k i st1
        rcases map_eq_cases _ _ _ hp with ⟨hp1, hp2⟩ | ⟨p1, p2, hp1, hp2, hab⟩
        · rw [hp1, hp2]
        · obtain ⟨pe1, pi1, per1, pl1⟩ := p1
          obtain ⟨pe2, pi2, per2, pl2⟩ := p2
          simp only [Prod.mk.injEq] at hab
          obtain ⟨he, hi, herr⟩ := hab
          subst he
          subst hi
          subst herr
          rw [hp1, hp2]
          cases per1 with
          | some e => rfl
          | none =>
            simp only []
            have hrec := ih pi1 (dc + 1) pe1
            rcases map_eq_cases _ _ _ hrec with ⟨hq1, hq2⟩ | ⟨q1, q2, hq1, hq2, hqb⟩
            · rw [hq1, hq2]
              rfl
            · rw [hq1, hq2]
              simp only [Prod.mk.injEq] at hqb
              obtain ⟨hqe, hqi, hqd, hqerr⟩ := hqb
              simp [hqe, hqi, hqd, hqerr]
    · rw [if_neg hg, if_neg hg]

lemma episodeLoop_pure (pol : Policy) (rank : Rank) (decks : Nat → List String)
    (v1 v2 : Bool) (episode : Int) :
    ∀ (fuel : Nat) (i : Int) (dc : Nat) (st : Env),
      (episodeLoop pol rank decks v1 episode fuel i dc st).map
        (fun r => (r.env, r.i, r.dcount, r.err)) =
      (episodeLoop pol rank decks v2 episode fuel i dc st).map
        (fun r => (r.env, r.i, r.dcount, r.err)) := by
  intro fuel
  induction fuel with
  | zero => intro i dc st; rfl
  | succ k ih =>
    intro i dc st
    simp only [episodeLoop]
    by_cases hg : i ≤ episode
    · rw [if_pos hg, if_pos hg]
      have hh := handLoop_pure pol rank decks v1 v2 k i dc st
      rcases map_eq_cases _ _ _ hh with ⟨hh1, hh2⟩ | ⟨p1, p2, hh1, hh2, hab⟩
      · rw [hh1, hh2]
      · obtain ⟨pe1, pi1, pd1, per1, pl1⟩ := p1
        obtain ⟨pe2, pi2, pd2, per2, pl2⟩ := p2
        simp only [Prod.mk.injEq] at hab
        obtain ⟨he, hi, hd, herr⟩ := hab
        subst he
        subst hi
        subst hd
        subst herr
        rw [hh1, hh2]
        cases per1 with
        | some e => rfl
        | none =>
          simp only []
          rcases hv : revive (decks pd1) pe1 with ⟨st2, oe⟩
          cases oe with
          | some e => rfl
          | none =>
            simp only []
            have hrec := ih pi1 (pd1 + 1) st2
            rcases map_eq_cases _ _ _ hrec with ⟨hq1, hq2⟩ | ⟨q1, q2, hq1, hq2, hqb⟩
            · rw [hq1, hq2]
              rfl
            · rw [hq1, hq2]
              simp only [Prod.mk.injEq] at hqb
              obtain ⟨hqe, hqi, hqd, hqerr⟩ := hqb
              simp [hqe, hqi, hqd, hqerr]
    · rw [if_neg hg, if_neg hg]

/-- C7: verbose mode is pure observability: for every initial table state,
every deck-order oracle, every policy (a fixed mapping from observations and
offered actions to responses), every fuel and episode count, running
play_game with verbose = true and with verbose = false yields the same
outcome up to the printed log: the same success or failure, the same final
table state, and the same propagated error; the two runs differ only in the
log component. -/
theorem c7_verbose_pure (pol : Policy) (rank : Rank) (decks : Nat → List String)
    (fuel : Nat) (episode : Int) (st : Env) :
    (play_game pol rank decks true fuel episode st).map (fun r => (r.1, r.2.1)) =
    (play_game pol rank decks false fuel episode st).map (fun r => (r.1, r.2.1)) := by
  simp only [play_game]
  have he := episodeLoop_pure pol rank decks true false episode fuel 1 0 st
  rcases map_eq_cases _ _ _ he with ⟨h1, h2⟩ | ⟨a, b, h1, h2, hab⟩
  · rw [h1, h2]
  · rw [h1, h2]
    simp only [Prod.mk.injEq] at hab
    obtain ⟨h3, h4, h5, h6⟩ := hab
    simp [h3, h6]
